import Mathlib

/-!
Shallow embedding of the milhouse persistent Merkle-tree library
(`src/tree.rs`, `src/packed_leaf.rs`, `src/leaf.rs`, `src/builder.rs`,
`src/update_map.rs`, `src/utils.rs`, `src/interface.rs`, `src/list.rs`,
`src/iter.rs`, `src/interface_iter.rs`, `src/level_iter.rs`, `src/repeat.rs`).

Modelling conventions:
* `Arc<T>` pointers are modelled by plain values (copy-on-write sharing is
  unobservable for the functional claims; where pointer equality matters, in
  `MTree::rebase_on`, it is modelled by an oracle `po` constrained to imply
  structural equality).
* `Hash256` is modelled by `Nat`; the all-zero hash ("not yet computed") is `0`.
  The derived `PartialEq` instances of the Rust types ignore hash caches
  (`educe(PartialEq(ignore))`), which is mirrored by `MTree.peq` / `MTree.strip`.
* Rust `usize` is modelled by `Nat`. The library limits trees to `2^63`
  elements (`MAX_TREE_DEPTH = 63`), so no arithmetic here overflows in Rust.
* Fallible Rust functions returning `Result<_, Error>` become `Except Err _`.
  The one function that panics unconditionally (`Interface::get`) returns
  `Panicky _`.
* Rust `loop`/`while` constructs and non-structural recursion are modelled with
  an explicit fuel parameter; exhausting the fuel (which corresponds to
  divergence of the Rust loop, impossible for the states exercised here)
  yields the distinguished error `Err.modelNonTermination`.
-/

set_option autoImplicit false

/-- Error type (`src/error.rs`), restricted to the variants reachable from the
operations modelled here, plus `modelNonTermination` (see header comment). -/
inductive Err where
  | outOfBoundsUpdate (index : Nat) (len : Nat)
  | outOfBoundsIterFrom (index : Nat) (len : Nat)
  | listFull (len : Nat)
  | packedLeafFull (len : Nat)
  | leafUpdateMissing (index : Nat)
  | packedLeafOutOfBounds (sub_index : Nat) (len : Nat)
  | nodeUpdatesMissing (pfx : Nat)
  | invalidListUpdate
  | updateLeafError
  | updateLeavesError
  | builderExpectedLeaf
  | builderStackEmptyMerge
  | builderStackEmptyMergeLeft
  | builderStackEmptyMergeRight
  | builderStackEmptyFinish
  | builderStackEmptyFinishLeft
  | builderStackEmptyFinishRight
  | builderStackEmptyFinalize
  | builderStackLeftover
  | builderInvalidDepth (depth : Nat)
  | builderFull
  | bulkUpdateUnclean
  | levelIterPendingUpdates
  | invalidRebaseNode
  | invalidRebaseLeaf
  | modelNonTermination
  | modelUnreachable
deriving DecidableEq, Repr

/-- Result of code that may panic (used for `Interface::get`, which is
`panic!()` in the source, and for the `assert_eq!` in `InterfaceIter::next`). -/
inductive Panicky (α : Type) where
  | panicked
  | ok (val : α)
deriving DecidableEq, Repr

/-- Hash256 model: `0` is the all-zero hash, meaning "not yet computed". -/
abbrev Hash := Nat

/-- MAX_TREE_DEPTH from `src/lib.rs`. -/
def MAX_TREE_DEPTH : Nat := 63

/-- Rust `usize::trailing_zeros` (which is `64` for input `0`).
Implemented with fuel 64, enough for every value `< 2^64`. -/
def trailing_zeros_go : Nat → Nat → Nat
  | 0, _ => 64
  | fuel + 1, n => if n % 2 = 1 then 0 else trailing_zeros_go fuel (n / 2) + 1

/-- Rust `usize::trailing_zeros`. -/
def trailing_zeros (n : Nat) : Nat :=
  if n = 0 then 64 else trailing_zeros_go 64 n

/-- Fuelled search for the smallest `d` (starting from the accumulator) with
`n ≤ 2^d`; 64 units of fuel cover every `usize` value. -/
def int_log_go : Nat → Nat → Nat → Nat
  | 0, _, d => d
  | fuel + 1, n, d => if n ≤ 2 ^ d then d else int_log_go fuel n (d + 1)

/-- `int_log` from `src/utils.rs`: smallest number of bits `d` so that
`n <= 2^d`. -/
def int_log (n : Nat) : Nat := int_log_go 64 n 0

/-- `opt_packing_factor::<T>()` is `Some k` for basic `T` (with
`k = 32 / sizeof(T)`, always a power of two) and `None` otherwise.  The whole
development is parametrised by this value `pk : Option Nat`. -/
def opt_packing_depth (pk : Option Nat) : Option Nat := pk.map int_log

/-- Packing depth with default 0: `opt_packing_depth::<T>().unwrap_or(0)`. -/
def packing_depth_of (pk : Option Nat) : Nat := (opt_packing_depth pk).getD 0

/-- Packing factor as used in contexts where Rust calls
`T::tree_hash_packing_factor()` directly (only reachable for packed `T`). -/
def packing_factor_of (pk : Option Nat) : Nat := pk.getD 0

/-- `compute_level` from `src/utils.rs`. -/
def compute_level (index depth packing_depth : Nat) : Nat :=
  let raw_level := if index = 0 then depth + packing_depth else trailing_zeros index
  if raw_level < packing_depth then 0 else raw_level

/-- `Leaf<T>` (`src/leaf.rs`): cached hash plus one owned value. -/
structure LeafS (T : Type) where
  hash : Hash
  value : T
deriving DecidableEq

/-- `Leaf::new` : hash cache initialised to zero. -/
def LeafS.new {T : Type} (value : T) : LeafS T := { hash := 0, value := value }

/-- `Leaf::with_hash`. -/
def LeafS.with_hash {T : Type} (value : T) (hash : Hash) : LeafS T :=
  { hash := hash, value := value }

/-- `PackedLeaf<T>` (`src/packed_leaf.rs`): cached hash plus up to
`packing_factor` values. -/
structure PLeaf (T : Type) where
  hash : Hash
  values : List T
deriving DecidableEq

/-- `PackedLeaf::empty`. -/
def PLeaf.empty {T : Type} : PLeaf T := { hash := 0, values := [] }

/-- `PackedLeaf::single`. -/
def PLeaf.single {T : Type} (value : T) : PLeaf T := { hash := 0, values := [value] }

/-- `PackedLeaf::repeat` (the `assert!(n <= packing_factor)` holds at every
call site modelled here). -/
def PLeaf.repeatP {T : Type} (value : T) (n : Nat) : PLeaf T :=
  { hash := 0, values := List.replicate n value }

/-- `PackedLeaf::insert_mut`: zeroes the hash cache, then writes slot
`sub_index` (replace below the length, append at it, error above it). -/
def PLeaf.insert_mut {T : Type} (l : PLeaf T) (sub_index : Nat) (value : T) :
    Except Err (PLeaf T) :=
  let l0 : PLeaf T := { l with hash := 0 }
  if sub_index = l0.values.length then
    Except.ok { l0 with values := l0.values ++ [value] }
  else if sub_index < l0.values.length then
    Except.ok { l0 with values := l0.values.set sub_index value }
  else
    Except.error (Err.packedLeafOutOfBounds sub_index l0.values.length)

/-- `PackedLeaf::insert_at_index`: clone with zero hash, then `insert_mut` at
`index % packing_factor`. -/
def PLeaf.insert_at_index {T : Type} (pk : Option Nat) (l : PLeaf T)
    (index : Nat) (value : T) : Except Err (PLeaf T) :=
  let updated : PLeaf T := { hash := 0, values := l.values }
  let sub_index := index % packing_factor_of pk
  updated.insert_mut sub_index value

/-- `PackedLeaf::push`. -/
def PLeaf.push {T : Type} (pk : Option Nat) (l : PLeaf T) (value : T) :
    Except Err (PLeaf T) :=
  if l.values.length = packing_factor_of pk then
    Except.error (Err.packedLeafFull l.values.length)
  else
    Except.ok { l with values := l.values ++ [value] }

/-- Pending-updates map (`src/update_map.rs`, concrete instance
`MaxMap<VecMap<T>>`): a finite association list from indices to values.
The map is only ever grown via `insert`, so the `MaxMap` cached maximum key
coincides with the maximum present key, modelled by `UMap.max_index`. -/
abbrev UMap (T : Type) : Type := List (Nat × T)

/-- Point lookup (`UpdateMap::get`). -/
def UMap.get {T : Type} (u : UMap T) (k : Nat) : Option T :=
  (u.find? (fun e => e.1 == k)).map (fun e => e.2)

/-- Keyed insert (`VecMap::insert`): replaces an existing entry. -/
def UMap.insertU {T : Type} : UMap T → Nat → T → UMap T
  | [], k, v => [(k, v)]
  | e :: rest, k, v => if e.1 = k then (k, v) :: rest else e :: UMap.insertU rest k v

/-- `UpdateMap::is_empty`. -/
def UMap.is_empty {T : Type} (u : UMap T) : Bool := u.isEmpty

/-- `UpdateMap::len`. -/
def UMap.lenU {T : Type} (u : UMap T) : Nat := u.length

/-- `MaxMap::max_index`: the maximum key, when the map is non-empty.  (The
`MaxMap` wrapper tracks the maximum inserted key; since entries are never
removed this equals the maximum present key.) -/
def UMap.max_index {T : Type} (u : UMap T) : Option Nat :=
  if u.isEmpty then none else some (u.foldl (fun m e => max m e.1) 0)

/-- Entries with keys in `[start, stop)`, in ascending key order — the order
in which `VecMap::for_each_range` (and `BTreeMap::range`) visits them. -/
def UMap.range_entries {T : Type} (u : UMap T) (start stop : Nat) :
    List (Nat × T) :=
  (List.range' start (stop - start)).filterMap
    (fun k => (u.get k).map (fun v => (k, v)))

/-- A `for_each_range` call that breaks at the first visited entry, as used by
`MTree::with_updated_leaves` to test "does either half contain updates". -/
def UMap.has_in_range {T : Type} (u : UMap T) (start stop : Nat) : Bool :=
  !(u.range_entries start stop).isEmpty

/-- `PackedLeaf::update`: clone with the supplied hash, then `insert_mut`
every update with key in `[prefix, prefix + packing_factor)` in key order. -/
def PLeaf.update {T : Type} (pk : Option Nat) (l : PLeaf T) (pfx : Nat)
    (hash : Hash) (u : UMap T) : Except Err (PLeaf T) :=
  let packing_factor := packing_factor_of pk
  let start := pfx
  let stop := pfx + packing_factor
  (u.range_entries start stop).foldlM
    (fun (acc : PLeaf T) e => acc.insert_mut (e.1 % packing_factor) e.2)
    ({ hash := hash, values := l.values } : PLeaf T)

/-- `Tree<T>` (`src/tree.rs`; renamed `MTree` because Mathlib already declares `Tree`): Leaf / PackedLeaf / Node / Zero. -/
inductive MTree (T : Type) where
  | leaf (l : LeafS T)
  | packedLeaf (pl : PLeaf T)
  | node (hash : Hash) (left : MTree T) (right : MTree T)
  | zero (depth : Nat)
deriving DecidableEq

/-- `MTree::zero` / `MTree::empty`. -/
def MTree.zeroT {T : Type} (depth : Nat) : MTree T := MTree.zero depth

/-- `MTree::node` smart constructor (argument order of the source:
left, right, hash). -/
def MTree.nodeC {T : Type} (left right : MTree T) (hash : Hash) : MTree T :=
  MTree.node hash left right

/-- `MTree::leaf`. -/
def MTree.leafC {T : Type} (value : T) : MTree T := MTree.leaf (LeafS.new value)

/-- `MTree::leaf_with_hash`. -/
def MTree.leaf_with_hash {T : Type} (value : T) (hash : Hash) : MTree T :=
  MTree.leaf (LeafS.with_hash value hash)

/-- Erase every hash cache.  Two trees are equal under the derived Rust
`PartialEq` (which ignores hash caches) iff their `strip`s are equal. -/
def MTree.strip {T : Type} : MTree T → MTree T
  | MTree.leaf l => MTree.leaf { hash := 0, value := l.value }
  | MTree.packedLeaf pl => MTree.packedLeaf { hash := 0, values := pl.values }
  | MTree.node _ l r => MTree.node 0 l.strip r.strip
  | MTree.zero d => MTree.zero d

/-- The derived `PartialEq` of `MTree` (`educe(PartialEq)` with the hash field
ignored). -/
def MTree.peq {T : Type} [DecidableEq T] : MTree T → MTree T → Bool
  | MTree.leaf l1, MTree.leaf l2 => decide (l1.value = l2.value)
  | MTree.packedLeaf p1, MTree.packedLeaf p2 => decide (p1.values = p2.values)
  | MTree.node _ l1 r1, MTree.node _ l2 r2 => l1.peq l2 && r1.peq r2
  | MTree.zero d1, MTree.zero d2 => decide (d1 = d2)
  | _, _ => false

/-- `MTree::get_recursive` (`src/tree.rs`). -/
def MTree.get_recursive {T : Type} (pk : Option Nat) :
    MTree T → Nat → Nat → Nat → Option T
  | MTree.leaf l, _, 0, _ => some l.value
  | MTree.packedLeaf pl, index, 0, _ => pl.values.get? (index % packing_factor_of pk)
  | MTree.node _ left right, index, new_depth + 1, packing_depth =>
    if (index >>> (new_depth + packing_depth)) % 2 = 0 then
      left.get_recursive pk index new_depth packing_depth
    else
      right.get_recursive pk index new_depth packing_depth
  | _, _, _, _ => none

/-- `MTree::compute_len`. -/
def MTree.compute_len {T : Type} : MTree T → Nat
  | MTree.leaf _ => 1
  | MTree.packedLeaf pl => pl.values.length
  | MTree.node _ l r => l.compute_len + r.compute_len
  | MTree.zero _ => 0

/-- Map from `(depth, prefix)` to hash (`BTreeMap<(usize, usize), Hash256>`). -/
def HMap : Type := List ((Nat × Nat) × Hash)

/-- `opt_hash` from `src/utils.rs`. -/
def opt_hash (hashes : Option HMap) (depth pfx : Nat) : Option Hash :=
  hashes.bind (fun m =>
    (m.find? (fun e => e.1.1 == depth && e.1.2 == pfx)).map (fun e => e.2))

/-- `Tree::with_updated_leaf` (`src/tree.rs`), with fuel (the Rust recursion
enters each `(depth, is_zero)` stage at most once, so `2 * depth + 2` suffices). -/
def MTree.with_updated_leaf_go {T : Type} (pk : Option Nat) :
    Nat → MTree T → Nat → T → Nat → Except Err (MTree T)
  | 0, _, _, _, _ => Except.error Err.modelNonTermination
  | _ + 1, MTree.leaf _, _, new_value, 0 => Except.ok (MTree.leafC new_value)
  | _ + 1, MTree.packedLeaf pl, index, new_value, 0 =>
    (pl.insert_at_index pk index new_value).map MTree.packedLeaf
  | fuel + 1, MTree.node _ left right, index, new_value, new_depth + 1 =>
    let packing_depth := packing_depth_of pk
    if (index >>> (new_depth + packing_depth)) % 2 = 0 then
      (left.with_updated_leaf_go pk fuel index new_value new_depth).map
        (fun l => MTree.nodeC l right 0)
    else
      (right.with_updated_leaf_go pk fuel index new_value new_depth).map
        (fun r => MTree.nodeC left r 0)
  | fuel + 1, MTree.zero zero_depth, index, new_value, depth =>
    if zero_depth = depth then
      if depth = 0 then
        if (pk.isSome) then
          Except.ok (MTree.packedLeaf (PLeaf.single new_value))
        else
          Except.ok (MTree.leafC new_value)
      else
        let new_zero : MTree T := MTree.zeroT (depth - 1)
        (MTree.nodeC new_zero new_zero 0).with_updated_leaf_go pk fuel index new_value depth
    else
      Except.error Err.updateLeafError
  | _ + 1, _, _, _, _ => Except.error Err.updateLeafError

/-- `Tree::with_updated_leaf`. -/
def MTree.with_updated_leaf {T : Type} (pk : Option Nat) (t : MTree T)
    (index : Nat) (new_value : T) (depth : Nat) : Except Err (MTree T) :=
  t.with_updated_leaf_go pk (2 * depth + 2) index new_value depth

/-- `Tree::with_updated_leaves` (`src/tree.rs`), with fuel as above. -/
def MTree.with_updated_leaves_go {T : Type} (pk : Option Nat) :
    Nat → MTree T → UMap T → Nat → Nat → Option HMap → Except Err (MTree T)
  | 0, _, _, _, _, _ => Except.error Err.modelNonTermination
  | fuel + 1, t, updates, pfx, depth, hashes =>
    let hash := (opt_hash hashes depth pfx).getD 0
    match t, depth with
    | MTree.leaf _, 0 =>
      let index := pfx
      match updates.get index with
      | some value => Except.ok (MTree.leaf_with_hash value hash)
      | none => Except.error (Err.leafUpdateMissing index)
    | MTree.packedLeaf packed_leaf, 0 =>
      (packed_leaf.update pk pfx hash updates).map MTree.packedLeaf
    | MTree.node _ left right, new_depth + 1 =>
      let depth := new_depth + 1
      let packing_depth := packing_depth_of pk
      let left_prefix := pfx
      let right_prefix := pfx ||| (1 <<< (new_depth + packing_depth))
      let right_subtree_end := pfx + (1 <<< (depth + packing_depth))
      let has_left_updates := updates.has_in_range left_prefix right_prefix
      let has_right_updates := updates.has_in_range right_prefix right_subtree_end
      if !has_left_updates && !has_right_updates then
        Except.error (Err.nodeUpdatesMissing pfx)
      else do
        let new_left ←
          if has_left_updates then
            left.with_updated_leaves_go pk fuel updates left_prefix new_depth hashes
          else
            Except.ok left
        let new_right ←
          if has_right_updates then
            right.with_updated_leaves_go pk fuel updates right_prefix new_depth hashes
          else
            Except.ok right
        Except.ok (MTree.nodeC new_left new_right hash)
    | MTree.zero zero_depth, depth =>
      if zero_depth = depth then
        if depth = 0 then
          if pk.isSome then
            (PLeaf.empty.update pk pfx hash updates).map MTree.packedLeaf
          else
            let index := pfx
            match updates.get index with
            | some value => Except.ok (MTree.leaf_with_hash value hash)
            | none => Except.error (Err.leafUpdateMissing index)
        else
          let new_zero : MTree T := MTree.zeroT (depth - 1)
          (MTree.nodeC new_zero new_zero hash).with_updated_leaves_go pk fuel
            updates pfx depth hashes
      else
        Except.error Err.updateLeavesError
    | _, _ => Except.error Err.updateLeavesError

/-- `Tree::with_updated_leaves`. -/
def MTree.with_updated_leaves {T : Type} (pk : Option Nat) (t : MTree T)
    (updates : UMap T) (pfx depth : Nat) (hashes : Option HMap) :
    Except Err (MTree T) :=
  t.with_updated_leaves_go pk (2 * depth + 2) updates pfx depth hashes

/-- `Builder<T>` (`src/builder.rs`).  The stack is a list whose head is the
top (the `MaybeArced` wrapper is an allocation detail with no observable
effect and is omitted). -/
structure Builder (T : Type) where
  stack : List (MTree T)
  depth : Nat
  level : Nat
  length : Nat
  packing_factor : Option Nat
  packing_depth : Nat
  capacity : Nat

/-- `Builder::new`. -/
def Builder.new {T : Type} (pk : Option Nat) (depth level : Nat) :
    Except Err (Builder T) :=
  let packing_depth := packing_depth_of pk
  if depth + packing_depth > MAX_TREE_DEPTH then
    Except.error (Err.builderInvalidDepth depth)
  else
    Except.ok
      { stack := []
        depth := depth
        level := level
        length := 0
        packing_factor := pk
        packing_depth := packing_depth
        capacity := 1 <<< (depth + packing_depth) }

/-- The merge loop of `Builder::push`: pop `m` stack elements, each becoming
the left child of the node under construction.  Popping an empty stack is
`BuilderStackEmptyMerge`. -/
def Builder.merge_loop {T : Type} :
    Nat → List (MTree T) → MTree T → Except Err (MTree T × List (MTree T))
  | 0, stack, top => Except.ok (top, stack)
  | _ + 1, [], _ => Except.error Err.builderStackEmptyMerge
  | m + 1, left :: rest, top => Builder.merge_loop m rest (MTree.nodeC left top 0)

/-- `Builder::push`. -/
def Builder.push {T : Type} (b : Builder T) (value : T) : Except Err (Builder T) := do
  if b.length = b.capacity then
    throw Err.builderFull
  let index := b.length
  let next_index := index + 1
  let (new_stack_top, stack1) ←
    match b.packing_factor with
    | some packing_factor =>
      if index % packing_factor = 0 then
        Except.ok (MTree.packedLeaf (PLeaf.single value), b.stack)
      else
        match b.stack with
        | MTree.packedLeaf leaf :: rest =>
          (leaf.push b.packing_factor value).map
            (fun leaf1 => (MTree.packedLeaf leaf1, rest))
        | _ => Except.error Err.builderExpectedLeaf
    | none => Except.ok (MTree.leafC value, b.stack)
  let values_to_merge := trailing_zeros next_index - b.packing_depth
  let (top, stack2) ← Builder.merge_loop values_to_merge stack1 new_stack_top
  Except.ok { b with stack := top :: stack2, length := b.length + 1 }

/-- The merge loop of `Builder::push_node`: like `Builder.merge_loop`, but an
empty stack is silently skipped (`if let Some(left) = self.stack.pop()`). -/
def Builder.merge_loop_node {T : Type} :
    Nat → List (MTree T) → MTree T → MTree T × List (MTree T)
  | 0, stack, top => (top, stack)
  | m + 1, [], top => Builder.merge_loop_node m [] top
  | m + 1, left :: rest, top => Builder.merge_loop_node m rest (MTree.nodeC left top 0)

/-- `Builder::push_node` (used by `pop_front`). -/
def Builder.push_node {T : Type} (b : Builder T) (node : MTree T) (len : Nat) :
    Except Err (Builder T) := do
  if b.length = b.capacity then
    throw Err.builderFull
  let index_on_level := b.length >>> b.level
  let next_index_on_level := index_on_level + 1
  let values_to_merge :=
    if b.level = 0 then
      trailing_zeros next_index_on_level - b.packing_depth
    else
      trailing_zeros next_index_on_level
  let (top, stack2) := Builder.merge_loop_node values_to_merge b.stack node
  Except.ok { b with stack := top :: stack2, length := b.length + len }

/-- The partially-filled-packed-leaf merge loop of `Builder::finish`
(`for i in 0..depth` with early `break`): pops right then left, merging while
the bit at `i + packing_depth` of `next_index_on_level` is set. -/
def Builder.skip_merge_loop {T : Type} (next packing_depth : Nat) :
    Nat → Nat → List (MTree T) → Except Err (List (MTree T))
  | 0, _, stack => Except.ok stack
  | m + 1, i, stack =>
    if (next >>> (i + packing_depth)) % 2 = 1 then
      match stack with
      | [] => Except.error Err.builderStackEmptyMergeRight
      | [_] => Except.error Err.builderStackEmptyMergeLeft
      | right :: left :: rest =>
        Builder.skip_merge_loop next packing_depth m (i + 1)
          (MTree.nodeC left right 0 :: rest)
    else
      Except.ok stack

/-- The inner merge loop of the zero-padding phase of `Builder::finish`
(`for i in depth + 1..self.depth` with early `break`). -/
def Builder.finish_merge_loop {T : Type} (shifted packing_depth : Nat) :
    Nat → Nat → List (MTree T) → Except Err (List (MTree T))
  | 0, _, stack => Except.ok stack
  | m + 1, i, stack =>
    if (shifted >>> (i + packing_depth)) % 2 = 1 then
      match stack with
      | [] => Except.error Err.builderStackEmptyFinishRight
      | [_] => Except.error Err.builderStackEmptyFinishLeft
      | right :: left :: rest =>
        Builder.finish_merge_loop shifted packing_depth m (i + 1)
          (MTree.nodeC left right 0 :: rest)
    else
      Except.ok stack

/-- The zero-padding `while` loop of `Builder::finish`, with fuel. -/
def Builder.finish_loop {T : Type} (b_depth level packing_depth capacity : Nat) :
    Nat → List (MTree T) → Nat → Except Err (List (MTree T))
  | 0, _, _ => Except.error Err.modelNonTermination
  | fuel + 1, stack, next_index_on_level =>
    if next_index_on_level <<< level = capacity then
      Except.ok stack
    else do
      let depth := trailing_zeros next_index_on_level + level - packing_depth
      match stack with
      | [] => Except.error Err.builderStackEmptyFinish
      | stack_top :: rest => do
        let stack1 := MTree.nodeC stack_top (MTree.zeroT depth) 0 :: rest
        let stack2 ← Builder.finish_merge_loop (next_index_on_level <<< level)
          packing_depth (b_depth - (depth + 1)) (depth + 1) stack1
        Builder.finish_loop b_depth level packing_depth capacity fuel stack2
          (next_index_on_level + 2 ^ (depth + packing_depth - level))

/-- `Builder::finish`: returns `(tree, depth, length)`. -/
def Builder.finish {T : Type} (b : Builder T) : Except Err (MTree T × Nat × Nat) := do
  if b.stack.isEmpty then
    return (MTree.zeroT b.depth, b.depth, 0)
  let length := b.length
  let level_capacity := 1 <<< b.level
  let next_index0 := (length + level_capacity - 1) / level_capacity
  let (stack1, next_index1) ←
    match b.packing_factor with
    | some packing_factor =>
      let skip_indices := (packing_factor - length % packing_factor) % packing_factor
      if skip_indices > 0 && b.level = 0 then
        (Builder.skip_merge_loop next_index0 b.packing_depth b.depth 0 b.stack).map
          (fun s => (s, next_index0 + skip_indices))
      else
        Except.ok (b.stack, next_index0)
    | none => Except.ok (b.stack, next_index0)
  let stack2 ← Builder.finish_loop b.depth b.level b.packing_depth b.capacity
    (b.capacity + 1) stack1 next_index1
  match stack2 with
  | [] => Except.error Err.builderStackEmptyFinalize
  | tree :: rest =>
    if rest.isEmpty then
      Except.ok (tree, b.depth, b.length)
    else
      Except.error Err.builderStackLeftover

/-- `updated_length` from `src/utils.rs`. -/
def updated_length {T : Type} (prev_len : Nat) (updates : UMap T) : Nat :=
  match updates.max_index with
  | none => prev_len
  | some max_idx => max (max_idx + 1) prev_len

/-- `ListInner<T, N>` (`src/list.rs`): the backing of a `List`.  The
type-level length bound `N` is passed explicitly to the operations that
consult it. -/
structure ListInner (T : Type) where
  tree : MTree T
  length : Nat
  depth : Nat
  packing_depth : Nat
deriving DecidableEq

/-- `Interface<T, ListInner<T, N>, U>` (`src/interface.rs`): immutable backing
plus the pending-updates buffer. -/
structure Interface (T : Type) where
  backing : ListInner T
  updates : UMap T
deriving DecidableEq

/-- `List<T, N>` (`src/list.rs`; renamed `LList` because Lean already declares
`List`). -/
structure LList (T : Type) where
  interface : Interface T
deriving DecidableEq

/-- `ImmList::get` for `ListInner`: in-bounds indices are resolved through
`Tree::get_recursive`. -/
def ListInner.get {T : Type} (pk : Option Nat) (inner : ListInner T)
    (index : Nat) : Option T :=
  if index < inner.length then
    inner.tree.get_recursive pk index inner.depth inner.packing_depth
  else
    none

/-- `MutList::validate_push` for `ListInner<T, N>`. -/
def ListInner.validate_push (N : Nat) (current_len : Nat) : Except Err Unit :=
  if current_len = N then
    Except.error (Err.listFull current_len)
  else
    Except.ok ()

/-- `MutList::update` for `ListInner<T, N>`.  Rust mutates `self` in place and
has already updated `self.length` when `with_updated_leaves` fails, so the
model returns the post-state together with the optional error. -/
def ListInner.update {T : Type} (pk : Option Nat) (N : Nat)
    (inner : ListInner T) (updates : UMap T) (hash_updates : Option HMap) :
    ListInner T × Option Err :=
  match updates.max_index with
  | none => (inner, none)
  | some max_index =>
    if max_index ≥ N then
      (inner, some Err.invalidListUpdate)
    else
      let inner1 := { inner with length := updated_length inner.length updates }
      match inner1.tree.with_updated_leaves pk updates 0 inner1.depth hash_updates with
      | Except.ok tree1 => ({ inner1 with tree := tree1 }, none)
      | Except.error e => (inner1, some e)

/-- `Interface::new`. -/
def Interface.new {T : Type} (backing : ListInner T) : Interface T :=
  { backing := backing, updates := [] }

/-- `Interface::len`. -/
def Interface.len {T : Type} (i : Interface T) : Nat :=
  updated_length i.backing.length i.updates

/-- `Interface::is_empty`. -/
def Interface.is_empty {T : Type} (i : Interface T) : Bool :=
  i.len = 0

/-- `Interface::has_pending_updates`. -/
def Interface.has_pending_updates {T : Type} (i : Interface T) : Bool :=
  !i.updates.is_empty

/-- `Interface::get` — the source body is `panic!()`. -/
def Interface.get {T : Type} (_i : Interface T) (_idx : Nat) :
    Panicky (Option T) :=
  Panicky.panicked

/-- `Interface::push`: validate against the backing bound, then insert at the
current effective length. -/
def Interface.push {T : Type} (N : Nat) (i : Interface T) (value : T) :
    Except Err (Interface T) := do
  let index := i.len
  let _ ← ListInner.validate_push N index
  Except.ok { i with updates := i.updates.insertU index value }

/-- `Interface::apply_updates`: takes the buffer out (leaving it empty) before
updating the backing; the post-state is returned together with the optional
error. -/
def Interface.apply_updates {T : Type} (pk : Option Nat) (N : Nat)
    (i : Interface T) : Interface T × Option Err :=
  if !i.updates.is_empty then
    let taken := i.updates
    let (backing1, res) := ListInner.update pk N i.backing taken none
    ({ backing := backing1, updates := [] }, res)
  else
    (i, none)

/-- `Interface::bulk_update`. -/
def Interface.bulk_update {T : Type} (i : Interface T) (updates : UMap T) :
    Except Err (Interface T) :=
  if !i.updates.is_empty then
    Except.error Err.bulkUpdateUnclean
  else
    Except.ok { i with updates := updates }

/-- `Iter<T>` (`src/iter.rs`).  The stack holds the trees themselves (borrowed
pointers in Rust); its head is the top. -/
structure IterS (T : Type) where
  stack : List (MTree T)
  index : Nat
  full_depth : Nat
  packing_factor : Nat
  packing_depth : Nat
  length : Nat
deriving DecidableEq

/-- `Iter::from_index`. -/
def IterS.from_index {T : Type} (pk : Option Nat) (index : Nat) (root : MTree T)
    (depth length : Nat) : IterS T :=
  { stack := [root]
    index := index
    full_depth := depth
    packing_factor := (pk).getD 0
    packing_depth := (opt_packing_depth pk).getD 0
    length := length }

/-- `Iter::next`, with fuel for the go-left/go-right recursion (bounded by the
stack growth, hence by `full_depth + 1`). -/
def IterS.next_go {T : Type} : Nat → IterS T → Option (T × IterS T)
  | 0, _ => none
  | fuel + 1, it =>
    if it.index ≥ it.length then
      none
    else
      match it.stack with
      | [] => none
      | MTree.zero _ :: _ => none
      | MTree.leaf l :: _ =>
        let index1 := it.index + 1
        let to_pop := trailing_zeros index1 + 1
        some (l.value, { it with index := index1, stack := it.stack.drop to_pop })
      | MTree.packedLeaf pl :: _ =>
        let sub_index := it.index % it.packing_factor
        match pl.values.get? sub_index with
        | none => none
        | some value =>
          let index1 := it.index + 1
          let stack1 :=
            if sub_index + 1 = it.packing_factor then
              it.stack.drop (trailing_zeros index1 - it.packing_depth + 1)
            else
              it.stack
          some (value, { it with index := index1, stack := stack1 })
      | MTree.node _ left right :: _ =>
        let depth := it.full_depth - it.stack.length
        if (it.index >>> (depth + it.packing_depth)) % 2 = 0 then
          IterS.next_go fuel { it with stack := left :: it.stack }
        else
          IterS.next_go fuel { it with stack := right :: it.stack }

/-- `Iter::next`. -/
def IterS.next {T : Type} (it : IterS T) : Option (T × IterS T) :=
  IterS.next_go (it.full_depth + it.packing_depth + 2) it

/-- `InterfaceIter<T>` (`src/interface_iter.rs`). -/
structure InterfaceIter (T : Type) where
  tree_iter : IterS T
  updates : UMap T
  index : Nat
  length : Nat
deriving DecidableEq

/-- `InterfaceIter::next`: steps the tree iterator in lockstep (with the
source's `assert_eq!` modelled as a potential panic) and prioritises the
pending-updates buffer. -/
def InterfaceIter.next {T : Type} (it : InterfaceIter T) :
    Panicky (Option T × InterfaceIter T) :=
  let index := it.index
  if it.tree_iter.index < it.tree_iter.length ∧ it.tree_iter.index ≠ index then
    Panicky.panicked
  else
    let (backing_value, tree_iter1) :=
      match it.tree_iter.next with
      | some (v, ti) => (some v, ti)
      | none => (none, it.tree_iter)
    Panicky.ok ((it.updates.get index).or backing_value,
      { it with index := index + 1, tree_iter := tree_iter1 })

/-- `ImmList::iter_from` for `ListInner` (passes the backing length). -/
def ListInner.iter_from {T : Type} (pk : Option Nat) (inner : ListInner T)
    (index : Nat) : IterS T :=
  IterS.from_index pk index inner.tree inner.depth inner.length

/-- `Interface::iter_from`: fuses the backing iterator with the buffer; the
iterator length is the effective length. -/
def Interface.iter_from {T : Type} (pk : Option Nat) (i : Interface T)
    (index : Nat) : InterfaceIter T :=
  { tree_iter := i.backing.iter_from pk index
    updates := i.updates
    index := index
    length := i.len }

/-- Item yielded by a `LevelIter` (`src/level_iter.rs`). -/
inductive LevelNode (T : Type) where
  | internal (t : MTree T)
  | packedLeafValue (v : T)
deriving DecidableEq

/-- `LevelIter<T>` (`src/level_iter.rs`). -/
structure LevelIter (T : Type) where
  stack : List (MTree T)
  index : Nat
  level : Nat
  full_depth : Nat
  packing_factor : Nat
  packing_depth : Nat
  length : Nat
deriving DecidableEq

/-- `LevelIter::from_index`. -/
def LevelIter.from_index {T : Type} (pk : Option Nat) (index : Nat)
    (root : MTree T) (depth length : Nat) : LevelIter T :=
  let packing_factor := (pk).getD 0
  let packing_depth := (opt_packing_depth pk).getD 0
  { stack := [root]
    index := index
    level := compute_level index depth packing_depth
    full_depth := depth
    packing_factor := packing_factor
    packing_depth := packing_depth
    length := length }

/-- `LevelIter::next`, with fuel for the descend-into-child recursion.  The
`checked_sub(packing_depth).expect(..)` in the packed-leaf arm cannot fail for
the aligned indices produced by the iterator itself and is modelled by
truncating `Nat` subtraction. -/
def LevelIter.next_go {T : Type} : Nat → LevelIter T → Option (LevelNode T × LevelIter T)
  | 0, _ => none
  | fuel + 1, it =>
    if it.index ≥ it.length then
      none
    else
      match it.stack with
      | [] => none
      | MTree.zero _ :: _ => none
      | MTree.leaf l :: _ =>
        let index1 := it.index + 1
        let to_pop := trailing_zeros index1 + 1
        some (LevelNode.internal (MTree.leaf l),
          { it with index := index1, stack := it.stack.drop to_pop })
      | MTree.packedLeaf pl :: _ =>
        let node_depth := it.full_depth + it.packing_depth - it.stack.length + 1
        if node_depth = it.level then
          let index1 := it.index + (1 <<< it.level)
          let to_pop := trailing_zeros index1 + 1 - it.level
          some (LevelNode.internal (MTree.packedLeaf pl),
            { it with index := index1, stack := it.stack.drop to_pop })
        else
          let sub_index := it.index % it.packing_factor
          match pl.values.get? sub_index with
          | none => none
          | some value =>
            let index1 := it.index + 1
            let stack1 :=
              if sub_index + 1 = it.packing_factor then
                it.stack.drop (trailing_zeros index1 - it.packing_depth + 1)
              else
                it.stack
            some (LevelNode.packedLeafValue value,
              { it with index := index1, stack := stack1 })
      | MTree.node h left right :: _ =>
        let child_depth := it.full_depth + it.packing_depth - it.stack.length
        let node_depth := child_depth + 1
        if node_depth = it.level then
          let index1 := it.index + (1 <<< it.level)
          let to_pop := trailing_zeros index1 + 1 - it.level
          some (LevelNode.internal (MTree.node h left right),
            { it with index := index1, stack := it.stack.drop to_pop })
        else if (it.index >>> child_depth) % 2 = 0 then
          LevelIter.next_go fuel { it with stack := left :: it.stack }
        else
          LevelIter.next_go fuel { it with stack := right :: it.stack }

/-- `LevelIter::next`. -/
def LevelIter.next {T : Type} (it : LevelIter T) :
    Option (LevelNode T × LevelIter T) :=
  LevelIter.next_go (it.full_depth + it.packing_depth + 2) it

/-- Drain a `LevelIter` into a list (the iteration of `List::pop_front`),
with fuel (one unit per yielded element). -/
def LevelIter.to_list {T : Type} : Nat → LevelIter T → List (LevelNode T)
  | 0, _ => []
  | fuel + 1, it =>
    match it.next with
    | none => []
    | some (item, it1) => item :: LevelIter.to_list fuel it1

/-- Drain an `InterfaceIter` into a list, with fuel; a panic of `next`
propagates. -/
def InterfaceIter.to_list {T : Type} : Nat → InterfaceIter T → Panicky (List T)
  | 0, _ => Panicky.ok []
  | fuel + 1, it =>
    match it.next with
    | Panicky.panicked => Panicky.panicked
    | Panicky.ok (none, _) => Panicky.ok []
    | Panicky.ok (some v, it1) =>
      match InterfaceIter.to_list fuel it1 with
      | Panicky.panicked => Panicky.panicked
      | Panicky.ok rest => Panicky.ok (v :: rest)

/-- `ImmList::level_iter_from` for `ListInner`. -/
def ListInner.level_iter_from {T : Type} (pk : Option Nat) (inner : ListInner T)
    (index : Nat) : LevelIter T :=
  LevelIter.from_index pk index inner.tree inner.depth inner.length

/-- `Interface::level_iter_from`: requires an empty pending-updates buffer. -/
def Interface.level_iter_from {T : Type} (pk : Option Nat) (i : Interface T)
    (index : Nat) : Except Err (LevelIter T) :=
  if i.has_pending_updates then
    Except.error Err.levelIterPendingUpdates
  else
    Except.ok (i.backing.level_iter_from pk index)

/-- `List::depth` (`src/list.rs`). -/
def LList.depthN (pk : Option Nat) (N : Nat) : Nat :=
  match opt_packing_depth pk with
  | some packing_bits => int_log N - packing_bits
  | none => int_log N

/-- `List::from_parts`. -/
def LList.from_parts {T : Type} (pk : Option Nat) (tree : MTree T)
    (depth length : Nat) : LList T :=
  { interface := Interface.new
      { tree := tree
        length := length
        depth := depth
        packing_depth := packing_depth_of pk } }

/-- `List::empty`. -/
def LList.empty {T : Type} (pk : Option Nat) (N : Nat) : LList T :=
  let depth := LList.depthN pk N
  LList.from_parts pk (MTree.zeroT depth) depth 0

/-- `List::len`. -/
def LList.len {T : Type} (l : LList T) : Nat := l.interface.len

/-- `List::get` — delegates to the (panicking) `Interface::get`. -/
def LList.get {T : Type} (l : LList T) (index : Nat) : Panicky (Option T) :=
  l.interface.get index

/-- `List::has_pending_updates`. -/
def LList.has_pending_updates {T : Type} (l : LList T) : Bool :=
  l.interface.has_pending_updates

/-- `List::push`. -/
def LList.push {T : Type} (N : Nat) (l : LList T) (value : T) :
    Except Err (LList T) :=
  (l.interface.push N value).map LList.mk

/-- `List::apply_updates`. -/
def LList.apply_updates {T : Type} (pk : Option Nat) (N : Nat) (l : LList T) :
    LList T × Option Err :=
  let (i1, res) := l.interface.apply_updates pk N
  (LList.mk i1, res)

/-- `List::bulk_update`. -/
def LList.bulk_update {T : Type} (l : LList T) (updates : UMap T) :
    Except Err (LList T) :=
  (l.interface.bulk_update updates).map LList.mk

/-- `List::iter_from`: index `len` is allowed (empty iterator), larger indices
error. -/
def LList.iter_from {T : Type} (pk : Option Nat) (l : LList T) (index : Nat) :
    Except Err (InterfaceIter T) :=
  if index > l.len then
    Except.error (Err.outOfBoundsIterFrom index l.len)
  else
    Except.ok (l.interface.iter_from pk index)

/-- `List::level_iter_from`. -/
def LList.level_iter_from {T : Type} (pk : Option Nat) (l : LList T)
    (index : Nat) : Except Err (LevelIter T) :=
  if index > l.len then
    Except.error (Err.outOfBoundsIterFrom index l.len)
  else
    l.interface.level_iter_from pk index

/-- `List::try_from_iter`: bulk construction through the `Builder`, then the
final length check against `N`. -/
def LList.try_from_iter {T : Type} (pk : Option Nat) (N : Nat) (v : List T) :
    Except Err (LList T) := do
  let b0 : Builder T ← Builder.new pk (LList.depthN pk N) 0
  let b ← v.foldlM Builder.push b0
  let (tree, depth, length) ← b.finish
  if length > N then
    throw Err.builderFull
  Except.ok (LList.from_parts pk tree depth length)

/-- `List::try_from_iter_slow`: push one by one into an empty list, then apply
the buffered updates. -/
def LList.try_from_iter_slow {T : Type} (pk : Option Nat) (N : Nat)
    (v : List T) : Except Err (LList T) := do
  let l ← v.foldlM (fun (l : LList T) x => l.push N x) (LList.empty pk N)
  match l.apply_updates pk N with
  | (l1, none) => Except.ok l1
  | (_, some e) => throw e

/-- `List::pop_front_slow`: rebuild from the iterator starting at `n`.  (The
`InterfaceIter` collect cannot panic for a consistent list; a panic is mapped
to `modelNonTermination`.) -/
def LList.pop_front_slow {T : Type} (pk : Option Nat) (N : Nat) (l : LList T)
    (n : Nat) : Except Err (LList T) := do
  let it ← l.iter_from pk n
  match it.to_list (l.len + 2) with
  | Panicky.panicked => throw Err.modelNonTermination
  | Panicky.ok items => LList.try_from_iter pk N items

/-- The builder loop of `List::pop_front`: push every yielded level node; the
length of the final internal subtree is obtained from `compute_len`, all
others are `1 << level` (`peek`-based last-element detection becomes
position-based detection on the drained list). -/
def LList.pop_front_push_loop {T : Type} (level : Nat) :
    List (LevelNode T) → Builder T → Except Err (Builder T)
  | [], b => Except.ok b
  | LevelNode.internal node :: rest, b => do
    let last := rest.isEmpty
    let subtree_len := if !last then 1 <<< level else node.compute_len
    let b1 ← b.push_node node subtree_len
    LList.pop_front_push_loop level rest b1
  | LevelNode.packedLeafValue value :: rest, b => do
    let b1 ← b.push value
    LList.pop_front_push_loop level rest b1

/-- `List::pop_front`. -/
def LList.pop_front {T : Type} (pk : Option Nat) (N : Nat) (l : LList T)
    (n : Nat) : Except Err (LList T) := do
  let l ←
    match l.apply_updates pk N with
    | (l1, none) => Except.ok l1
    | (_, some e) => throw e
  if n = 0 then
    return l
  let depth := LList.depthN pk N
  let packing_depth := packing_depth_of pk
  let level := compute_level n depth packing_depth
  let b0 : Builder T ← Builder.new pk (LList.depthN pk N) level
  let level_iter ← l.level_iter_from pk n
  let items := level_iter.to_list (l.len + 2)
  let b ← LList.pop_front_push_loop level items b0
  let (tree, depth1, length) ← b.finish
  Except.ok (LList.from_parts pk tree depth1 length)

/-- One level of `repeat_list` (`src/repeat.rs`): the rewrite of the current
layer (at most a bulk-repeated subtree plus a lonely subtree). -/
def repeat_layer_step {T : Type} (depth : Nat) :
    List (MTree T × Nat) → Except Err (List (MTree T × Nat))
  | [(repeat_leaf, 1)] =>
    Except.ok [(MTree.nodeC repeat_leaf (MTree.zeroT depth) 0, 1)]
  | [(repeat_leaf, repeat_count)] =>
    if repeat_count % 2 = 0 then
      Except.ok [(MTree.nodeC repeat_leaf repeat_leaf 0, repeat_count / 2)]
    else
      Except.ok
        [(MTree.nodeC repeat_leaf repeat_leaf 0, repeat_count / 2),
         (MTree.nodeC repeat_leaf (MTree.zeroT depth) 0, 1)]
  | [(repeat_leaf, 1), (lonely_leaf, 1)] =>
    Except.ok [(MTree.nodeC repeat_leaf lonely_leaf 0, 1)]
  | [(repeat_leaf, repeat_count), (lonely_leaf, 1)] =>
    if repeat_count % 2 = 0 then
      Except.ok
        [(MTree.nodeC repeat_leaf repeat_leaf 0, repeat_count / 2),
         (MTree.nodeC lonely_leaf (MTree.zeroT depth) 0, 1)]
    else
      Except.ok
        [(MTree.nodeC repeat_leaf repeat_leaf 0, repeat_count / 2),
         (MTree.nodeC repeat_leaf lonely_leaf 0, 1)]
  | _ => Except.error Err.modelUnreachable

/-- The `for depth in 0..tree_depth` loop of `repeat_list`. -/
def repeat_loop {T : Type} :
    Nat → Nat → List (MTree T × Nat) → Except Err (List (MTree T × Nat))
  | _, 0, layer => Except.ok layer
  | depth, remaining + 1, layer => do
    let layer1 ← repeat_layer_step depth layer
    repeat_loop (depth + 1) remaining layer1

/-- `repeat_list` (`src/repeat.rs`): efficient construction of
`List::repeat(elem, n)`. -/
def repeat_list {T : Type} (pk : Option Nat) (N : Nat) (elem : T) (n : Nat) :
    Except Err (LList T) := do
  if n = 0 then
    return LList.empty pk N
  let tree_depth := LList.depthN pk N
  let layer0 : List (MTree T × Nat) ←
    match pk with
    | some packing_factor =>
      let repeat_count := n / packing_factor
      let lonely_count := n % packing_factor
      let repeat_leaf := MTree.packedLeaf (PLeaf.repeatP elem packing_factor)
      let lonely_leaf := MTree.packedLeaf (PLeaf.repeatP elem lonely_count)
      match repeat_count, lonely_count with
      | 0, 0 => Except.error Err.modelUnreachable
      | _ + 1, 0 => Except.ok [(repeat_leaf, repeat_count)]
      | 0, _ + 1 => Except.ok [(lonely_leaf, 1)]
      | _ + 1, _ + 1 => Except.ok [(repeat_leaf, repeat_count), (lonely_leaf, 1)]
    | none => Except.ok [(MTree.leafC elem, n)]
  let layer ← repeat_loop 0 tree_depth layer0
  match layer.getLast? with
  | none => throw Err.builderStackEmptyFinalize
  | some (root, count) =>
    if !layer.dropLast.isEmpty || count ≠ 1 then
      throw Err.builderStackLeftover
    else
      Except.ok (LList.from_parts pk root tree_depth n)

/-- `List::repeat`. -/
def LList.repeatL {T : Type} (pk : Option Nat) (N : Nat) (elem : T) (n : Nat) :
    Except Err (LList T) :=
  repeat_list pk N elem n

/-- `List::repeat_slow`. -/
def LList.repeat_slow {T : Type} (pk : Option Nat) (N : Nat) (elem : T)
    (n : Nat) : Except Err (LList T) :=
  LList.try_from_iter pk N (List.replicate n elem)

/-- `RebaseAction` (`src/tree.rs`).  `equalReplace` / `notEqualReplace` carry
the replacement tree (a borrowed `&Arc` resp. owned `Arc` in Rust). -/
inductive RebaseAction (T : Type) where
  | notEqualNoop
  | notEqualReplace (t : MTree T)
  | equalNoop
  | equalReplace (t : MTree T)
deriving DecidableEq

/-- `Tree::rebase_on` (`src/tree.rs`).  `po` is the pointer-equality oracle
modelling `Arc::ptr_eq`; every theorem about this function assumes
`po a b = true → a = b`, which holds of real pointer equality. -/
def MTree.rebase_on {T : Type} [DecidableEq T] (po : MTree T → MTree T → Bool)
    (orig base : MTree T) (lengths : Option (Nat × Nat)) (full_depth : Nat) :
    Except Err (RebaseAction T) :=
  if po orig base then
      Except.ok RebaseAction.equalNoop
    else
      match orig, base with
      | MTree.leaf l1, MTree.leaf l2 =>
        if l1.value = l2.value then
          Except.ok (RebaseAction.equalReplace (MTree.leaf l2))
        else
          Except.ok RebaseAction.notEqualNoop
      | MTree.packedLeaf p1, MTree.packedLeaf p2 =>
        if p1.values = p2.values then
          Except.ok (RebaseAction.equalReplace (MTree.packedLeaf p2))
        else
          Except.ok RebaseAction.notEqualNoop
      | MTree.zero z1, MTree.zero z2 =>
        if z1 = z2 then
          Except.ok (RebaseAction.equalReplace (MTree.zero z2))
        else
          Except.ok RebaseAction.notEqualNoop
      | MTree.node orig_hash l1 r1, MTree.node base_hash l2 r2 =>
        if 0 < full_depth then
          if orig_hash ≠ 0 ∧ orig_hash = base_hash ∧
              (match lengths with
               | none => true
               | some p => decide (p.1 = p.2)) = true then
            Except.ok (RebaseAction.equalReplace (MTree.node base_hash l2 r2))
          else do
            let new_full_depth := full_depth - 1
            let split := lengths.map (fun p =>
              let max_left_length := 1 <<< new_full_depth
              let orig_left_length := min p.1 max_left_length
              let orig_right_length := p.1 - orig_left_length
              let base_left_length := min p.2 max_left_length
              let base_right_length := p.2 - base_left_length
              ((orig_left_length, base_left_length),
               (orig_right_length, base_right_length)))
            let left_lengths := split.map (fun q => q.1)
            let right_lengths := split.map (fun q => q.2)
            let left_action ← MTree.rebase_on po l1 l2 left_lengths new_full_depth
            let right_action ← MTree.rebase_on po r1 r2 right_lengths new_full_depth
            match left_action, right_action with
            | RebaseAction.notEqualNoop, RebaseAction.notEqualNoop =>
              Except.ok RebaseAction.notEqualNoop
            | RebaseAction.notEqualNoop, RebaseAction.equalNoop =>
              Except.ok RebaseAction.notEqualNoop
            | RebaseAction.equalNoop, RebaseAction.notEqualNoop =>
              Except.ok RebaseAction.notEqualNoop
            | RebaseAction.equalNoop, RebaseAction.equalNoop =>
              Except.ok RebaseAction.equalNoop
            | RebaseAction.notEqualNoop, RebaseAction.notEqualReplace new_right =>
              Except.ok (RebaseAction.notEqualReplace
                (MTree.node orig_hash l1 new_right))
            | RebaseAction.equalNoop, RebaseAction.notEqualReplace new_right =>
              Except.ok (RebaseAction.notEqualReplace
                (MTree.node orig_hash l1 new_right))
            | RebaseAction.notEqualNoop, RebaseAction.equalReplace new_right =>
              Except.ok (RebaseAction.notEqualReplace
                (MTree.node orig_hash l1 new_right))
            | RebaseAction.equalNoop, RebaseAction.equalReplace new_right =>
              Except.ok (RebaseAction.notEqualReplace
                (MTree.node orig_hash l1 new_right))
            | RebaseAction.notEqualReplace new_left, RebaseAction.notEqualNoop =>
              Except.ok (RebaseAction.notEqualReplace
                (MTree.node orig_hash new_left r1))
            | RebaseAction.notEqualReplace new_left, RebaseAction.equalNoop =>
              Except.ok (RebaseAction.notEqualReplace
                (MTree.node orig_hash new_left r1))
            | RebaseAction.notEqualReplace new_left, RebaseAction.notEqualReplace new_right =>
              Except.ok (RebaseAction.notEqualReplace
                (MTree.node orig_hash new_left new_right))
            | RebaseAction.notEqualReplace new_left, RebaseAction.equalReplace new_right =>
              Except.ok (RebaseAction.notEqualReplace
                (MTree.node orig_hash new_left new_right))
            | RebaseAction.equalReplace new_left, RebaseAction.notEqualNoop =>
              Except.ok (RebaseAction.notEqualReplace
                (MTree.node orig_hash new_left r1))
            | RebaseAction.equalReplace new_left, RebaseAction.notEqualReplace new_right =>
              Except.ok (RebaseAction.notEqualReplace
                (MTree.node orig_hash new_left new_right))
            | RebaseAction.equalReplace _, RebaseAction.equalReplace _ =>
              Except.ok (RebaseAction.equalReplace (MTree.node base_hash l2 r2))
            | RebaseAction.equalReplace _, RebaseAction.equalNoop =>
              Except.ok (RebaseAction.equalReplace (MTree.node base_hash l2 r2))
        else
          Except.error Err.invalidRebaseNode
      | MTree.zero _, _ => Except.ok RebaseAction.notEqualNoop
      | _, MTree.zero _ => Except.ok RebaseAction.notEqualNoop
      | _, _ => Except.error Err.invalidRebaseLeaf

/-- `List::rebase_on` (`src/list.rs`): rebase the backing tree of `self` on
the backing tree of `base`, replacing it when the action says so. -/
def LList.rebase_on {T : Type} [DecidableEq T] (po : MTree T → MTree T → Bool)
    (l base : LList T) : Except Err (LList T) :=
  (MTree.rebase_on po l.interface.backing.tree base.interface.backing.tree
      (some (l.interface.backing.length, base.interface.backing.length))
      (l.interface.backing.depth + l.interface.backing.packing_depth)).map
    (fun act =>
      match act with
      | RebaseAction.equalReplace replacement =>
        { interface := { l.interface with
            backing := { l.interface.backing with tree := replacement } } }
      | RebaseAction.notEqualReplace replacement =>
        { interface := { l.interface with
            backing := { l.interface.backing with tree := replacement } } }
      | _ => l)

/-- Derived `PartialEq` of `List<T, N, U>`: compares the backing (tree modulo
hash caches, length, depth, packing depth) and the pending-updates buffer. -/
def LList.eqL {T : Type} [DecidableEq T] (a b : LList T) : Bool :=
  a.interface.backing.tree.peq b.interface.backing.tree
    && decide (a.interface.backing.length = b.interface.backing.length)
    && decide (a.interface.backing.depth = b.interface.backing.depth)
    && decide (a.interface.backing.packing_depth = b.interface.backing.packing_depth)
    && decide (a.interface.updates = b.interface.updates)

/-- Rust `==` on `Result<List, Error>` values, used to state the refinement
claims the way the spec states them. -/
def LList.eqE {T : Type} [DecidableEq T] (a b : Except Err (LList T)) : Bool :=
  match a, b with
  | Except.ok la, Except.ok lb => LList.eqL la lb
  | Except.error ea, Except.error eb => decide (ea = eb)
  | _, _ => false

/-- Well-formedness of a subtree at full depth `full_depth` (packing depth
included) representing `len` elements: nodes appear only above the packing
level and split their length as `rebase_on` does, zero subtrees carry their
depth label and no elements, leaves are the unpacked depth-0 case, packed
leaves hold exactly `len` values (at least one, at most the packing factor).
Every tree reachable through the public `List` API satisfies this. -/
def MTree.wfT {T : Type} (pk : Option Nat) : MTree T → Nat → Nat → Prop
  | MTree.zero d, full_depth, len => full_depth = d + packing_depth_of pk ∧ len = 0
  | MTree.leaf _, full_depth, len => pk = none ∧ full_depth = 0 ∧ len = 1
  | MTree.packedLeaf pl, full_depth, len =>
      (∃ k, pk = some k ∧ len ≤ k) ∧ full_depth = packing_depth_of pk ∧
        pl.values.length = len ∧ 1 ≤ len
  | MTree.node _ l r, full_depth, len =>
      packing_depth_of pk < full_depth ∧
      l.wfT pk (full_depth - 1) (min len (1 <<< (full_depth - 1))) ∧
      r.wfT pk (full_depth - 1) (len - min len (1 <<< (full_depth - 1)))

/-- The collision-freeness idealization justifying the hash short-cut of
`rebase_on`: whenever two corresponding `Node`s carry the same non-zero cached
hash and represent the same length, their contents agree.  For caches that are
either zero or equal to the SHA-256 Merkle root of the subtree this holds
exactly up to SHA-256 collisions. -/
def MTree.hash_agree {T : Type} : MTree T → MTree T → Nat → Nat → Nat → Prop
  | MTree.node h1 l1 r1, MTree.node h2 l2 r2, full_depth, la, lb =>
      (h1 ≠ 0 → h1 = h2 → la = lb →
        (MTree.node h1 l1 r1 : MTree T).strip = (MTree.node h2 l2 r2 : MTree T).strip) ∧
      MTree.hash_agree l1 l2 (full_depth - 1)
        (min la (1 <<< (full_depth - 1))) (min lb (1 <<< (full_depth - 1))) ∧
      MTree.hash_agree r1 r2 (full_depth - 1)
        (la - min la (1 <<< (full_depth - 1))) (lb - min lb (1 <<< (full_depth - 1)))
  | _, _, _, _, _ => True

/-- Mapping a function over the values of each model structure (hashes,
indices and shapes untouched).  These maps express that the library is
parametric in the element type: none of the modelled operations inspects
element values.  They are used to transport the refinement claims from
concrete index lists to arbitrary element values. -/
def PLeaf.mapP {A B : Type} (f : A → B) (l : PLeaf A) : PLeaf B :=
  { hash := l.hash, values := l.values.map f }

/-- Value map on `Leaf`. -/
def LeafS.mapLf {A B : Type} (f : A → B) (l : LeafS A) : LeafS B :=
  { hash := l.hash, value := f l.value }

/-- Value map on trees. -/
def MTree.mapT {A B : Type} (f : A → B) : MTree A → MTree B
  | MTree.leaf l => MTree.leaf (l.mapLf f)
  | MTree.packedLeaf pl => MTree.packedLeaf (pl.mapP f)
  | MTree.node h l r => MTree.node h (l.mapT f) (r.mapT f)
  | MTree.zero d => MTree.zero d

/-- Value map on update maps. -/
def UMap.mapU {A B : Type} (f : A → B) (u : UMap A) : UMap B :=
  u.map (fun e => (e.1, f e.2))

/-- Value map on builders. -/
def Builder.mapB {A B : Type} (f : A → B) (b : Builder A) : Builder B :=
  { stack := b.stack.map (MTree.mapT f)
    depth := b.depth
    level := b.level
    length := b.length
    packing_factor := b.packing_factor
    packing_depth := b.packing_depth
    capacity := b.capacity }

/-- Value map on list backings. -/
def ListInner.mapI {A B : Type} (f : A → B) (i : ListInner A) : ListInner B :=
  { tree := i.tree.mapT f
    length := i.length
    depth := i.depth
    packing_depth := i.packing_depth }

/-- Value map on interfaces. -/
def Interface.mapIf {A B : Type} (f : A → B) (i : Interface A) : Interface B :=
  { backing := i.backing.mapI f, updates := i.updates.mapU f }

/-- Value map on lists. -/
def LList.mapL {A B : Type} (f : A → B) (l : LList A) : LList B :=
  { interface := l.interface.mapIf f }

/-- Value map on tree iterators. -/
def IterS.mapIt {A B : Type} (f : A → B) (it : IterS A) : IterS B :=
  { stack := it.stack.map (MTree.mapT f)
    index := it.index
    full_depth := it.full_depth
    packing_factor := it.packing_factor
    packing_depth := it.packing_depth
    length := it.length }

/-- Value map on fused iterators. -/
def InterfaceIter.mapII {A B : Type} (f : A → B) (it : InterfaceIter A) :
    InterfaceIter B :=
  { tree_iter := it.tree_iter.mapIt f
    updates := it.updates.mapU f
    index := it.index
    length := it.length }

/-- Value map on level iterators. -/
def LevelIter.mapLI {A B : Type} (f : A → B) (it : LevelIter A) : LevelIter B :=
  { stack := it.stack.map (MTree.mapT f)
    index := it.index
    level := it.level
    full_depth := it.full_depth
    packing_factor := it.packing_factor
    packing_depth := it.packing_depth
    length := it.length }

/-- Value map on level-iterator items. -/
def LevelNode.mapLN {A B : Type} (f : A → B) : LevelNode A → LevelNode B
  | LevelNode.internal t => LevelNode.internal (t.mapT f)
  | LevelNode.packedLeafValue v => LevelNode.packedLeafValue (f v)

/-- Hash-erasure on iterator state (used to state that iteration is
insensitive to hash caches). -/
def IterS.strip_stack {T : Type} (it : IterS T) : IterS T :=
  { it with stack := it.stack.map MTree.strip }

/-- Hash-erasure on a fused iterator. -/
def InterfaceIter.strip_tree {T : Type} (it : InterfaceIter T) : InterfaceIter T :=
  { it with tree_iter := it.tree_iter.strip_stack }

/-! ## Shared lemmas -/

/-! ## C1 -/

/-! ## C9 -/

/-! ## C4 -/

/-! ## C5 -/

/-! ## C10 -/

/-! ## C6 -/

/-- The hash-cache contract of the nodes newly allocated by
`Tree::with_updated_leaves` on result `r` (placed at `(depth, pfx)`): a new
`Node` or `Leaf` carries exactly the supplied hash for its position (zero when
the map has no entry); a new `PackedLeaf` carries the supplied hash only if no
update touched it — otherwise its cache is zero; subtrees that contained no
updates are shared, not newly allocated, and are unconstrained. -/
def NewNodesHashed {T : Type} (pk : Option Nat) (hashes : Option HMap)
    (u : UMap T) : MTree T → Nat → Nat → Prop
  | MTree.leaf l, depth, pfx => l.hash = (opt_hash hashes depth pfx).getD 0
  | MTree.packedLeaf pl, depth, pfx =>
      (u.range_entries pfx (pfx + packing_factor_of pk) = [] →
        pl.hash = (opt_hash hashes depth pfx).getD 0) ∧
      (u.range_entries pfx (pfx + packing_factor_of pk) ≠ [] → pl.hash = 0)
  | MTree.node h left right, depth, pfx =>
      h = (opt_hash hashes depth pfx).getD 0 ∧
      (u.has_in_range pfx (pfx ||| (1 <<< (depth - 1 + packing_depth_of pk))) = true →
        NewNodesHashed pk hashes u left (depth - 1) pfx) ∧
      (u.has_in_range (pfx ||| (1 <<< (depth - 1 + packing_depth_of pk)))
          (pfx + (1 <<< (depth + packing_depth_of pk))) = true →
        NewNodesHashed pk hashes u right (depth - 1)
          (pfx ||| (1 <<< (depth - 1 + packing_depth_of pk))))
  | MTree.zero _, _, _ => True


/-! ## C3 -/


/-! ## Parametricity (naturality) of the modelled operations

None of the library operations modelled here inspects element values, so each
commutes with mapping a function over the values.  These lemmas transport the
refinement claims C2, C7 and C8 from concrete index vectors (where both sides
evaluate) to arbitrary element values. -/

theorem MTree.peq_iff_strip {T : Type} [DecidableEq T] (t1 t2 : MTree T) :
    t1.peq t2 = true ↔ t1.strip = t2.strip := by
  induction t1 generalizing t2 with
  | leaf l =>
    cases t2 <;> simp [MTree.peq, MTree.strip, LeafS.mk.injEq]
  | packedLeaf pl =>
    cases t2 <;> simp [MTree.peq, MTree.strip, PLeaf.mk.injEq]
  | node h l r ihl ihr =>
    cases t2 <;> simp [MTree.peq, MTree.strip, *]
  | zero d =>
    cases t2 <;> simp [MTree.peq, MTree.strip]

theorem MTree.strip_get_recursive {T : Type} (pk : Option Nat) (t : MTree T)
    (index depth packing_depth : Nat) :
    t.strip.get_recursive pk index depth packing_depth
      = t.get_recursive pk index depth packing_depth := by
  induction t generalizing index depth with
  | leaf l => cases depth <;> rfl
  | packedLeaf pl => cases depth <;> rfl
  | node h l r ihl ihr =>
    cases depth with
    | zero => rfl
    | succ d =>
      simp only [MTree.strip, MTree.get_recursive]
      split <;> simp [ihl, ihr]
  | zero d => cases depth <;> rfl

theorem MTree.peq_refl {T : Type} [DecidableEq T] (t : MTree T) :
    t.peq t = true := by
  rw [MTree.peq_iff_strip]

theorem LList.eqL_refl {T : Type} [DecidableEq T] (l : LList T) :
    LList.eqL l l = true := by
  simp [LList.eqL, MTree.peq_refl]

theorem LList.eqE_of_eq {T : Type} [DecidableEq T]
    {a b : Except Err (LList T)} (h : a = b) : LList.eqE a b = true := by
  subst h
  cases a with
  | ok l => simp [LList.eqE, LList.eqL_refl]
  | error e => simp [LList.eqE]

theorem UMap.foldl_max_le_init {T : Type} (u : UMap T) (acc : Nat) :
    acc ≤ u.foldl (fun m e => max m e.1) acc := by
  induction u generalizing acc with
  | nil => exact Nat.le_refl _
  | cons e rest ih => exact Nat.le_trans (Nat.le_max_left _ _) (ih _)

theorem UMap.foldl_max_lt {T : Type} (u : UMap T) (N : Nat)
    (hkeys : ∀ e ∈ u, e.1 < N) (acc : Nat) (hacc : acc < N) :
    u.foldl (fun m e => max m e.1) acc < N := by
  induction u generalizing acc with
  | nil => exact hacc
  | cons e rest ih =>
    simp only [List.foldl]
    exact ih (fun f hf => hkeys f (List.mem_cons_of_mem _ hf)) _
      (by have := hkeys e (List.mem_cons_self _ _); omega)

theorem UMap.get_le_fold_max {T : Type} (u : UMap T) (k : Nat) (v : T)
    (h : u.get k = some v) (acc : Nat) :
    k ≤ u.foldl (fun m e => max m e.1) acc := by
  induction u generalizing acc with
  | nil => simp [UMap.get] at h
  | cons e rest ih =>
    simp only [UMap.get, List.find?] at h
    by_cases hk : e.1 == k
    · have he : e.1 = k := by simpa using hk
      simp only [List.foldl]
      subst he
      exact Nat.le_trans (Nat.le_trans (Nat.le_max_right acc e.1)
        (UMap.foldl_max_le_init rest _)) (Nat.le_refl _)
    · simp only [hk] at h
      exact ih h _

/-- Any present key is at most `max_index`. -/
theorem UMap.get_le_max_index {T : Type} (u : UMap T) (k : Nat) (v : T)
    (h : u.get k = some v) :
    ∃ m, u.max_index = some m ∧ k ≤ m := by
  have hne : u ≠ [] := by
    intro he
    subst he
    simp [UMap.get] at h
  refine ⟨u.foldl (fun m e => max m e.1) 0, ?_, ?_⟩
  · simp [UMap.max_index, List.isEmpty_iff, hne]
  · exact UMap.get_le_fold_max u k v h 0

/-- No key at or beyond the effective length is present in the buffer. -/
theorem UMap.get_updated_length {T : Type} (u : UMap T) (prev_len j : Nat)
    (hj : updated_length prev_len u ≤ j) : u.get j = none := by
  cases hu : u.get j with
  | none => rfl
  | some v =>
    obtain ⟨m, hm, hkm⟩ := UMap.get_le_max_index u j v hu
    simp [updated_length, hm] at hj
    omega

/-- C1: the claim states that `list.get(i)` returns `Some(&v[i])` for
in-bounds `i` (consulting the pending-updates buffer first, then the backing
tree) and `None` out of bounds.  The code disagrees: `Interface::get`
(src/interface.rs, lines 92–102) is literally `panic!()` (the intended
updates-then-backing body is commented out), and `List::get` delegates to it,
so every call panics — including the crate's own `basic_mutation` test.  This
theorem evaluates the code of the claim's scenario: any list, here the one
built from `[1, 2, 3, 4]`, panics on `get(0)`. -/
theorem C1_get_panics :
    (∀ (l : LList Nat) (i : Nat), l.get i = Panicky.panicked) ∧
    (LList.try_from_iter (some 4) 8 [1, 2, 3, 4]).map (fun l => l.get 0)
      = Except.ok Panicky.panicked := by
  exact ⟨fun _ _ => rfl, rfl⟩

/-- C9: `PackedLeaf::insert_at_index(i, v)` targets slot `i % k` of a fresh
copy (the original is untouched — mirrored by the purely functional model):
the slot is replaced if below the current length `m`, the value is appended if
the slot equals `m` (the permitted append), and the call fails with
`PackedLeafOutOfBounds` exactly when the slot exceeds `m`.  The returned
leaf's hash cache is zeroed by `insert_mut`. -/
theorem C9_insert_at_index {T : Type} (k : Nat) (l : PLeaf T) (i : Nat) (v : T) :
    (i % k < l.values.length →
      PLeaf.insert_at_index (some k) l i v
        = Except.ok { hash := 0, values := l.values.set (i % k) v }) ∧
    (i % k = l.values.length →
      PLeaf.insert_at_index (some k) l i v
        = Except.ok { hash := 0, values := l.values ++ [v] }) ∧
    (i % k > l.values.length →
      PLeaf.insert_at_index (some k) l i v
        = Except.error (Err.packedLeafOutOfBounds (i % k) l.values.length)) := by
  refine ⟨fun h => ?_, fun h => ?_, fun h => ?_⟩
  · simp only [PLeaf.insert_at_index, PLeaf.insert_mut, packing_factor_of,
      Option.getD]
    rw [if_neg (by omega), if_pos h]
  · simp only [PLeaf.insert_at_index, PLeaf.insert_mut, packing_factor_of,
      Option.getD]
    rw [if_pos h]
  · simp only [PLeaf.insert_at_index, PLeaf.insert_mut, packing_factor_of,
      Option.getD]
    rw [if_neg (by omega), if_neg (by omega)]

/-- Witness for C9: a leaf holding one value, packing factor 4.  Index 5
targets slot 1 (append), index 4 targets slot 0 (replace), index 6 targets
slot 2 (out of bounds). -/
theorem C9_insert_at_index_witness :
    PLeaf.insert_at_index (some 4) ({ hash := 0, values := [10] } : PLeaf Nat) 5 42
      = Except.ok { hash := 0, values := [10, 42] } ∧
    PLeaf.insert_at_index (some 4) ({ hash := 0, values := [10] } : PLeaf Nat) 4 42
      = Except.ok { hash := 0, values := [42] } ∧
    PLeaf.insert_at_index (some 4) ({ hash := 0, values := [10] } : PLeaf Nat) 6 42
      = Except.error (Err.packedLeafOutOfBounds 2 1) := by
  refine ⟨?_, ?_, ?_⟩
  · exact (C9_insert_at_index 4 { hash := 0, values := [10] } 5 42).2.1 (by decide)
  · exact (C9_insert_at_index 4 { hash := 0, values := [10] } 4 42).1 (by decide)
  · exact (C9_insert_at_index 4 { hash := 0, values := [10] } 6 42).2.2 (by decide)

/-- C4 counterexample: the claim says the effective length reported by
`len()` is "always bounded by (saturated at) the capacity N", but neither
`updated_length` (src/utils.rs) nor `Interface::len` saturates at `N`.  A
state with a pending update beyond `N` is reachable through the public
`bulk_update` API (validation against `N` only happens later, in
`ListInner::update`): for `N = 8`, bulk-updating index 8 yields a list whose
`len()` is `9 > 8` while the buffer is non-empty. -/
theorem C4_len_exceeds_N :
    ∃ l : LList Nat,
      (LList.empty (some 4) 8 : LList Nat).bulk_update [(8, 42)] = Except.ok l ∧
      l.has_pending_updates = true ∧
      l.len = 9 ∧
      ¬l.len ≤ 8 := by
  exact ⟨_, rfl, rfl, rfl, by decide⟩

/-- C4 amended: for every interface state with a non-empty pending-updates
buffer the effective length equals `max(max_update_index + 1, backing.length)`
— but it is not saturated at `N`; it is bounded by `N` only under the extra
assumption that every buffered index is below `N` (which `push`/`get_mut`/
`get_cow` maintain but `bulk_update` does not). -/
theorem C4_effective_length {T : Type} (N : Nat) (i : Interface T)
    (h : i.updates ≠ []) :
    (∃ m, i.updates.max_index = some m ∧
      i.len = max (m + 1) i.backing.length) ∧
    (i.backing.length ≤ N → (∀ e ∈ i.updates, e.1 < N) → i.len ≤ N) := by
  have hne : i.updates.isEmpty = false := by
    simp [List.isEmpty_iff, h]
  constructor
  · refine ⟨i.updates.foldl (fun m e => max m e.1) 0, ?_, ?_⟩
    · simp [UMap.max_index, hne]
    · simp [Interface.len, updated_length, UMap.max_index, hne]
  · intro hbl hkeys
    have h0 : 0 < N := by
      cases hu : i.updates with
      | nil => exact absurd hu h
      | cons e rest => exact Nat.lt_of_le_of_lt (Nat.zero_le _) (hkeys e (by simp [hu]))
    have hm : i.updates.foldl (fun m e => max m e.1) 0 < N :=
      UMap.foldl_max_lt i.updates N hkeys 0 h0
    simp [Interface.len, updated_length, UMap.max_index, hne]
    omega

/-- Witness for C4 amended: a backing of length 1 with one buffered update at
index 2, `N = 8`. -/
theorem C4_effective_length_witness :
    (∃ m, UMap.max_index ([(2, 5)] : UMap Nat) = some m ∧
      Interface.len
        { backing := { tree := MTree.zero 1, length := 1, depth := 1, packing_depth := 2 }
          updates := [(2, 5)] } = max (m + 1) 1) ∧
    (1 ≤ 8 → (∀ e ∈ ([(2, 5)] : UMap Nat), e.1 < 8) →
      Interface.len
        { backing := { tree := MTree.zero 1, length := 1, depth := 1, packing_depth := 2 }
          updates := [(2, 5)] } ≤ 8) := by
  exact C4_effective_length 8
    { backing := { tree := MTree.zero 1, length := 1, depth := 1, packing_depth := 2 }
      updates := [(2, 5)] } (by decide)

/-- C5 counterexample: the claim says that when `apply_updates` errors the
backing — both its tree and its stored length — is unchanged.  But
`ListInner::update` (src/list.rs, lines 310–328) assigns
`self.length = updated_length(..)` *before* the fallible
`with_updated_leaves` call.  Starting from an empty `List<u64-like, 8>` and
bulk-updating index 3 only (no updates at 0..2), `with_updated_leaves` fails
with `PackedLeafOutOfBounds` — and afterwards the buffer is empty and the
tree unchanged, but the stored length has moved from 0 to 4. -/
theorem C5_backing_length_changed_on_error :
    ∃ (l l1 : LList Nat) (e : Err),
      (LList.empty (some 4) 8 : LList Nat).bulk_update [(3, 42)] = Except.ok l ∧
      l.apply_updates (some 4) 8 = (l1, some e) ∧
      e = Err.packedLeafOutOfBounds 3 0 ∧
      l1.interface.updates = [] ∧
      l1.interface.backing.tree = l.interface.backing.tree ∧
      l.interface.backing.length = 0 ∧
      l1.interface.backing.length = 4 := by
  exact ⟨_, _, _, rfl, rfl, rfl, rfl, rfl, rfl, rfl⟩

/-- C5 amended: when `apply_updates` returns an error, the pending-updates
buffer has been consumed (it is empty) and the backing *tree* is unchanged;
the backing's stored length, however, may already have been advanced to
`updated_length` (it is assigned before the tree rewrite is attempted). -/
theorem C5_apply_updates_error_state {T : Type} (pk : Option Nat) (N : Nat)
    (i i1 : Interface T) (e : Err)
    (h : i.apply_updates pk N = (i1, some e)) :
    i1.updates = [] ∧ i1.backing.tree = i.backing.tree := by
  unfold Interface.apply_updates at h
  by_cases hu : i.updates.is_empty
  · simp [hu] at h
  · simp only [hu, Bool.not_false, if_pos] at h
    unfold ListInner.update at h
    cases hmax : UMap.max_index i.updates with
    | none => simp [hmax] at h
    | some max_index =>
      simp only [hmax] at h
      by_cases hN : max_index ≥ N
      · simp only [if_pos hN] at h
        obtain ⟨h1, _⟩ := Prod.mk.injEq .. ▸ h
        constructor
        · rw [← h1]
        · rw [← h1]
      · simp only [if_neg hN] at h
        cases hwul : MTree.with_updated_leaves pk i.backing.tree i.updates 0
            i.backing.depth none with
        | ok t => simp [hwul] at h
        | error e2 =>
          simp only [hwul] at h
          obtain ⟨h1, _⟩ := Prod.mk.injEq .. ▸ h
          constructor
          · rw [← h1]
          · rw [← h1]

/-- Witness for C5 amended: the concrete failing state of the counterexample
scenario (buffer `{3 ↦ 42}` over an empty backing of depth 1). -/
theorem C5_apply_updates_error_state_witness :
    (({ backing := { tree := MTree.zero 1, length := 0, depth := 1, packing_depth := 2 }
        updates := [(3, 42)] } : Interface Nat).apply_updates (some 4) 8).1.updates = [] ∧
    (({ backing := { tree := MTree.zero 1, length := 0, depth := 1, packing_depth := 2 }
        updates := [(3, 42)] } : Interface Nat).apply_updates (some 4) 8).1.backing.tree
      = MTree.zero 1 := by
  exact C5_apply_updates_error_state (some 4) 8
    { backing := { tree := MTree.zero 1, length := 0, depth := 1, packing_depth := 2 }
      updates := [(3, 42)] }
    _ (Err.packedLeafOutOfBounds 3 0) rfl

/-- C10: `List::iter_from(i)` fails with `OutOfBoundsIterFrom` exactly when
`i > len`; at the boundary `i = len` it succeeds and the first `next()` call
of the returned iterator yields nothing (without tripping the internal
lockstep assertion). -/
theorem C10_iter_from_bounds {T : Type} (pk : Option Nat) (l : LList T)
    (index : Nat) :
    (index > l.len →
      l.iter_from pk index = Except.error (Err.outOfBoundsIterFrom index l.len)) ∧
    (index ≤ l.len → l.iter_from pk index
      = Except.ok (l.interface.iter_from pk index)) ∧
    (index = l.len →
      ∃ it, l.iter_from pk index = Except.ok it ∧
        it.next = Panicky.ok (none, { it with index := index + 1 })) := by
  refine ⟨fun h => ?_, fun h => ?_, fun h => ?_⟩
  · simp [LList.iter_from, h]
  · simp [LList.iter_from, Nat.not_lt_of_le h]
  · subst h
    refine ⟨l.interface.iter_from pk l.len, ?_, ?_⟩
    · simp [LList.iter_from]
    · have hlen : l.interface.backing.length ≤ l.len := by
        simp only [LList.len, Interface.len, updated_length]
        cases UMap.max_index l.interface.updates with
        | none => exact Nat.le_refl _
        | some m => exact Nat.le_max_right _ _
      have hget : l.interface.updates.get l.len = none :=
        UMap.get_updated_length l.interface.updates l.interface.backing.length
          l.len (Nat.le_of_eq rfl)
      unfold InterfaceIter.next
      simp only [Interface.iter_from, ListInner.iter_from, IterS.from_index]
      rw [if_neg (by
        intro hcontra
        exact absurd rfl hcontra.2)]
      have hnext : (IterS.from_index pk l.len l.interface.backing.tree
          l.interface.backing.depth l.interface.backing.length).next = none := by
        unfold IterS.next IterS.next_go
        simp only [IterS.from_index]
        rw [if_pos (by simpa using hlen)]
      simp only [IterS.from_index] at hnext
      rw [hnext]
      simp [hget]

/-- Witness for C10: a concrete three-element list; `iter_from` errors at 4,
succeeds at 2, and yields nothing at the boundary 3. -/
theorem C10_iter_from_bounds_witness :
    ∃ l : LList Nat,
      LList.try_from_iter (some 4) 8 [1, 2, 3] = Except.ok l ∧
      l.iter_from (some 4) 4 = Except.error (Err.outOfBoundsIterFrom 4 3) ∧
      l.iter_from (some 4) 2 = Except.ok (l.interface.iter_from (some 4) 2) ∧
      (∃ it, l.iter_from (some 4) 3 = Except.ok it ∧
        it.next = Panicky.ok (none, { it with index := 4 })) := by
  refine ⟨_, rfl, ?_, ?_, ?_⟩
  · exact (C10_iter_from_bounds (some 4) _ 4).1 (by decide)
  · exact (C10_iter_from_bounds (some 4) _ 2).2.1 (by decide)
  · exact (C10_iter_from_bounds (some 4) _ 3).2.2 (by rfl)

theorem PLeaf.insert_mut_hash {T : Type} {l : PLeaf T} {s : Nat} {v : T}
    {r : PLeaf T} (h : l.insert_mut s v = Except.ok r) : r.hash = 0 := by
  by_cases h1 : s = l.values.length
  · simp [PLeaf.insert_mut, h1] at h
    rw [← h]
  · by_cases h2 : s < l.values.length
    · simp [PLeaf.insert_mut, h1, h2] at h
      rw [← h]
    · simp [PLeaf.insert_mut, h1, h2] at h

theorem PLeaf.foldl_insert_mut_hash {T : Type} (pf : Nat) :
    ∀ (entries : List (Nat × T)) (init r : PLeaf T),
      entries.foldlM
        (fun (acc : PLeaf T) e => acc.insert_mut (e.1 % pf) e.2) init
        = Except.ok r →
      (entries = [] → r = init) ∧ (entries ≠ [] → r.hash = 0) := by
  intro entries
  induction entries with
  | nil =>
    intro init r h
    simp only [List.foldlM, pure, Except.pure] at h
    refine ⟨fun _ => ?_, fun hne => absurd rfl hne⟩
    cases h
    rfl
  | cons e rest ih =>
    intro init r h
    simp only [List.foldlM] at h
    cases hmid : init.insert_mut (e.1 % pf) e.2 with
    | error e2 =>
      rw [hmid] at h
      simp [bind, Except.bind] at h
    | ok mid =>
      rw [hmid] at h
      simp only [bind, Except.bind] at h
      refine ⟨fun hcontra => List.noConfusion hcontra, fun _ => ?_⟩
      cases rest with
      | nil =>
        simp only [List.foldlM, pure, Except.pure] at h
        cases h
        exact PLeaf.insert_mut_hash hmid
      | cons f fr =>
        exact (ih mid r h).2 (by simp)

/-- Hash cache of a packed leaf produced by `PackedLeaf::update`: the supplied
hash survives only when no update key falls in the leaf's range; otherwise the
final `insert_mut` leaves the cache zeroed. -/
theorem PLeaf.update_hash {T : Type} (pk : Option Nat) (l : PLeaf T)
    (pfx : Nat) (hash : Hash) (u : UMap T) (r : PLeaf T)
    (h : l.update pk pfx hash u = Except.ok r) :
    (u.range_entries pfx (pfx + packing_factor_of pk) = [] → r.hash = hash) ∧
    (u.range_entries pfx (pfx + packing_factor_of pk) ≠ [] → r.hash = 0) := by
  unfold PLeaf.update at h
  have := PLeaf.foldl_insert_mut_hash (packing_factor_of pk)
    (u.range_entries pfx (pfx + packing_factor_of pk))
    { hash := hash, values := l.values } r h
  exact ⟨fun he => by rw [(this.1 he)], this.2⟩

theorem with_updated_leaves_go_new_hashes {T : Type} (pk : Option Nat) :
    ∀ (fuel : Nat) (t : MTree T) (u : UMap T) (pfx depth : Nat)
      (hashes : Option HMap) (r : MTree T),
      MTree.with_updated_leaves_go pk fuel t u pfx depth hashes = Except.ok r →
      NewNodesHashed pk hashes u r depth pfx := by
  intro fuel
  induction fuel with
  | zero =>
    intro t u pfx depth hashes r h
    exact absurd h (by simp [MTree.with_updated_leaves_go])
  | succ fuel ih =>
    intro t u pfx depth hashes r h
    cases t with
    | leaf l =>
      cases depth with
      | zero =>
        simp only [MTree.with_updated_leaves_go] at h
        cases hg : UMap.get u pfx with
        | none => rw [hg] at h; exact Except.noConfusion h
        | some value =>
          rw [hg] at h
          cases h
          simp [NewNodesHashed, MTree.leaf_with_hash, LeafS.with_hash]
      | succ d =>
        simp only [MTree.with_updated_leaves_go] at h
        exact Except.noConfusion h
    | packedLeaf pl =>
      cases depth with
      | zero =>
        simp only [MTree.with_updated_leaves_go] at h
        cases hup : pl.update pk pfx ((opt_hash hashes 0 pfx).getD 0) u with
        | error e => rw [hup] at h; exact Except.noConfusion h
        | ok plr =>
          rw [hup] at h
          simp only [Except.map] at h
          cases h
          exact PLeaf.update_hash pk pl pfx _ u plr hup
      | succ d =>
        simp only [MTree.with_updated_leaves_go] at h
        exact Except.noConfusion h
    | node h0 left right =>
      cases depth with
      | zero =>
        simp only [MTree.with_updated_leaves_go] at h
        exact Except.noConfusion h
      | succ new_depth =>
        simp only [MTree.with_updated_leaves_go] at h
        by_cases hl : UMap.has_in_range u pfx
            (pfx ||| (1 <<< (new_depth + packing_depth_of pk))) = true
        · rw [hl] at h
          cases hrecl : MTree.with_updated_leaves_go pk fuel left u pfx
              new_depth hashes with
          | error e =>
            rw [hrecl] at h
            simp [bind, Except.bind] at h
          | ok new_left =>
            rw [hrecl] at h
            simp only [Bool.not_true, Bool.false_and, Bool.false_eq_true,
              if_false, if_true, bind, Except.bind] at h
            by_cases hr : UMap.has_in_range u
                (pfx ||| (1 <<< (new_depth + packing_depth_of pk)))
                (pfx + (1 <<< (new_depth + 1 + packing_depth_of pk))) = true
            · rw [hr] at h
              cases hrecr : MTree.with_updated_leaves_go pk fuel right u
                  (pfx ||| (1 <<< (new_depth + packing_depth_of pk)))
                  new_depth hashes with
              | error e =>
                rw [hrecr] at h
                simp [bind, Except.bind] at h
              | ok new_right =>
                rw [hrecr] at h
                simp only [if_true] at h
                cases h
                refine ⟨rfl, fun _ => ?_, fun _ => ?_⟩
                · simpa using ih left u pfx new_depth hashes new_left hrecl
                · simpa using ih right u _ new_depth hashes new_right hrecr
            · rw [Bool.not_eq_true] at hr
              rw [hr] at h
              simp only [if_false, Bool.false_eq_true] at h
              cases h
              refine ⟨rfl, fun _ => ?_, fun hcontra => ?_⟩
              · simpa using ih left u pfx new_depth hashes new_left hrecl
              · simp only [Nat.add_sub_cancel] at hcontra
                rw [hr] at hcontra
                exact Bool.noConfusion hcontra
        · rw [Bool.not_eq_true] at hl
          rw [hl] at h
          by_cases hr : UMap.has_in_range u
              (pfx ||| (1 <<< (new_depth + packing_depth_of pk)))
              (pfx + (1 <<< (new_depth + 1 + packing_depth_of pk))) = true
          · rw [hr] at h
            simp only [Bool.not_false, Bool.true_and, Bool.not_true,
              if_false, Bool.false_eq_true, bind, Except.bind, if_true] at h
            cases hrecr : MTree.with_updated_leaves_go pk fuel right u
                (pfx ||| (1 <<< (new_depth + packing_depth_of pk)))
                new_depth hashes with
            | error e =>
              rw [hrecr] at h
              simp [bind, Except.bind] at h
            | ok new_right =>
              rw [hrecr] at h
              simp only [bind, Except.bind] at h
              cases h
              refine ⟨rfl, fun hcontra => ?_, fun _ => ?_⟩
              · simp only [Nat.add_sub_cancel] at hcontra
                rw [hl] at hcontra
                exact Bool.noConfusion hcontra
              · simpa using ih right u _ new_depth hashes new_right hrecr
          · rw [Bool.not_eq_true] at hr
            rw [hr] at h
            simp at h
    | zero zero_depth =>
      simp only [MTree.with_updated_leaves_go] at h
      by_cases hzd : zero_depth = depth
      · rw [if_pos hzd] at h
        cases depth with
        | zero =>
          simp only [if_pos] at h
          cases hpk : pk.isSome with
          | true =>
            rw [hpk] at h
            simp only [if_true] at h
            cases hup : PLeaf.update pk PLeaf.empty pfx
                ((opt_hash hashes 0 pfx).getD 0) u with
            | error e =>
              rw [hup] at h
              simp [Except.map] at h
            | ok plr =>
              rw [hup] at h
              simp only [Except.map] at h
              cases h
              exact PLeaf.update_hash pk PLeaf.empty pfx _ u plr hup
          | false =>
            rw [hpk] at h
            simp only [Bool.false_eq_true, if_false] at h
            cases hg : UMap.get u pfx with
            | none => rw [hg] at h; exact Except.noConfusion h
            | some value =>
              rw [hg] at h
              cases h
              simp [NewNodesHashed, MTree.leaf_with_hash, LeafS.with_hash]
        | succ d =>
          simp only [Nat.succ_ne_zero, if_false] at h
          exact ih _ u pfx (d + 1) hashes r h
      · rw [if_neg hzd] at h
        exact Except.noConfusion h

/-- C6 counterexample: a `(depth, prefix) → hash` map entry `((0,0) ↦ 7)` is
supplied, one update targets the packed leaf at that position, yet the newly
allocated `PackedLeaf` ends the call with hash cache `0`, not `7`:
`PackedLeaf::insert_mut` zeroes the cache of the freshly built leaf after
`PackedLeaf::update` seeded it with the supplied hash. -/
theorem C6_packed_leaf_cache_zeroed :
    opt_hash (some [((0, 0), 7)]) 0 0 = some 7 ∧
    MTree.with_updated_leaves (some 4) (MTree.zero 0) [(0, (5 : Nat))] 0 0
        (some [((0, 0), 7)])
      = Except.ok (MTree.packedLeaf { hash := 0, values := [5] }) := ⟨rfl, rfl⟩

/-- C6 amended: on every successful `with_updated_leaves` call, each newly
allocated `Node` and `Leaf` is born with its hash cache equal to the supplied
map's entry for its `(depth, prefix)` position (zero when absent) — but a
newly allocated `PackedLeaf` keeps the supplied hash only when no update key
falls in its range: whenever at least one update is applied to it, its cache
is zeroed by `insert_mut`. -/
theorem C6_new_node_hashes {T : Type} (pk : Option Nat) (t : MTree T)
    (u : UMap T) (pfx depth : Nat) (hashes : Option HMap) (r : MTree T)
    (h : t.with_updated_leaves pk u pfx depth hashes = Except.ok r) :
    NewNodesHashed pk hashes u r depth pfx :=
  with_updated_leaves_go_new_hashes pk (2 * depth + 2) t u pfx depth hashes r h

/-- Witness for C6 amended: an unpacked two-leaf tree built from a zero tree
with hashes supplied for all three new nodes. -/
theorem C6_new_node_hashes_witness :
    NewNodesHashed none (some [((1, 0), 9), ((0, 0), 3), ((0, 1), 4)])
      [(0, (5 : Nat)), (1, 6)]
      (MTree.node 9 (MTree.leaf { hash := 3, value := 5 })
        (MTree.leaf { hash := 4, value := 6 }))
      1 0 :=
  C6_new_node_hashes none (MTree.zero 1) [(0, 5), (1, 6)] 0 1
    (some [((1, 0), 9), ((0, 0), 3), ((0, 1), 4)]) _ rfl

/-- Specification of `Tree::rebase_on` on well-formed same-shape trees: it
succeeds, and every action it returns is semantically faithful — `EqualNoop` /
`EqualReplace` certify that the two trees agree (modulo hash caches), and a
`NotEqualReplace` replacement agrees with `orig`.  Hypotheses: the
pointer-equality oracle is sound, and the cached hashes satisfy the
collision-freeness idealization `hash_agree`. -/
theorem MTree.rebase_on_spec {T : Type} [DecidableEq T]
    (pk : Option Nat) (po : MTree T → MTree T → Bool)
    (hpo : ∀ a b, po a b = true → a = b) (orig : MTree T) :
    ∀ (base : MTree T) (la lb full_depth : Nat),
      orig.wfT pk full_depth la → base.wfT pk full_depth lb →
      MTree.hash_agree orig base full_depth la lb →
      ∃ act, MTree.rebase_on po orig base (some (la, lb)) full_depth
          = Except.ok act ∧
        (act = RebaseAction.equalNoop → orig.strip = base.strip) ∧
        (∀ t, act = RebaseAction.equalReplace t →
          t = base ∧ orig.strip = base.strip) ∧
        (∀ t, act = RebaseAction.notEqualReplace t → t.strip = orig.strip) := by
  induction orig with
  | leaf l1 =>
    intro base la lb full_depth hwo hwb hha
    by_cases hpo0 : po (MTree.leaf l1) base = true
    · refine ⟨RebaseAction.equalNoop, ?_, fun _ => ?_,
        fun t ht => RebaseAction.noConfusion ht,
        fun t ht => RebaseAction.noConfusion ht⟩
      · rw [MTree.rebase_on.eq_def, if_pos hpo0]
      · rw [hpo _ _ hpo0]
    · obtain ⟨hpk, hfd, hla⟩ := hwo
      cases base with
      | leaf l2 =>
        rw [MTree.rebase_on.eq_def, if_neg hpo0]
        dsimp only
        by_cases hv : l1.value = l2.value
        · rw [if_pos hv]
          refine ⟨_, rfl, fun hcontra => RebaseAction.noConfusion hcontra,
            fun t ht => ?_, fun t ht => RebaseAction.noConfusion ht⟩
          injection ht with ht1
          exact ⟨ht1.symm, by simp [MTree.strip, hv]⟩
        · rw [if_neg hv]
          exact ⟨_, rfl, fun hcontra => RebaseAction.noConfusion hcontra,
            fun t ht => RebaseAction.noConfusion ht,
            fun t ht => RebaseAction.noConfusion ht⟩
      | packedLeaf p2 =>
        obtain ⟨⟨k, hk, _⟩, _⟩ := hwb
        rw [hk] at hpk
        exact Option.noConfusion hpk
      | node h2 l2 r2 =>
        obtain ⟨hpd2, _⟩ := hwb
        subst hfd
        exact absurd hpd2 (Nat.not_lt_zero _)
      | zero d2 =>
        refine ⟨RebaseAction.notEqualNoop, ?_, fun hcontra => RebaseAction.noConfusion hcontra,
          fun t ht => RebaseAction.noConfusion ht,
          fun t ht => RebaseAction.noConfusion ht⟩
        rw [MTree.rebase_on.eq_def, if_neg hpo0]
  | packedLeaf p1 =>
    intro base la lb full_depth hwo hwb hha
    by_cases hpo0 : po (MTree.packedLeaf p1) base = true
    · refine ⟨RebaseAction.equalNoop, ?_, fun _ => ?_,
        fun t ht => RebaseAction.noConfusion ht,
        fun t ht => RebaseAction.noConfusion ht⟩
      · rw [MTree.rebase_on.eq_def, if_pos hpo0]
      · rw [hpo _ _ hpo0]
    · obtain ⟨⟨k1, hk1, _⟩, hfd1, _, _⟩ := hwo
      cases base with
      | leaf l2 =>
        obtain ⟨hpk2, _⟩ := hwb
        rw [hk1] at hpk2
        exact Option.noConfusion hpk2
      | packedLeaf p2 =>
        rw [MTree.rebase_on.eq_def, if_neg hpo0]
        dsimp only
        by_cases hv : p1.values = p2.values
        · rw [if_pos hv]
          refine ⟨_, rfl, fun hcontra => RebaseAction.noConfusion hcontra,
            fun t ht => ?_, fun t ht => RebaseAction.noConfusion ht⟩
          injection ht with ht1
          exact ⟨ht1.symm, by simp [MTree.strip, hv]⟩
        · rw [if_neg hv]
          exact ⟨_, rfl, fun hcontra => RebaseAction.noConfusion hcontra,
            fun t ht => RebaseAction.noConfusion ht,
            fun t ht => RebaseAction.noConfusion ht⟩
      | node h2 l2 r2 =>
        obtain ⟨hpd2, _⟩ := hwb
        rw [hk1] at hpd2
        rw [hfd1, hk1] at hpd2
        exact absurd hpd2 (Nat.lt_irrefl _)
      | zero d2 =>
        refine ⟨RebaseAction.notEqualNoop, ?_, fun hcontra => RebaseAction.noConfusion hcontra,
          fun t ht => RebaseAction.noConfusion ht,
          fun t ht => RebaseAction.noConfusion ht⟩
        rw [MTree.rebase_on.eq_def, if_neg hpo0]
  | zero d1 =>
    intro base la lb full_depth hwo hwb hha
    by_cases hpo0 : po (MTree.zero d1) base = true
    · refine ⟨RebaseAction.equalNoop, ?_, fun _ => ?_,
        fun t ht => RebaseAction.noConfusion ht,
        fun t ht => RebaseAction.noConfusion ht⟩
      · rw [MTree.rebase_on.eq_def, if_pos hpo0]
      · rw [hpo _ _ hpo0]
    · obtain ⟨hfd1, _⟩ := hwo
      cases base with
      | zero d2 =>
        obtain ⟨hfd2, _⟩ := hwb
        have hd : d1 = d2 := by omega
        rw [MTree.rebase_on.eq_def, if_neg hpo0]
        dsimp only
        rw [if_pos hd]
        refine ⟨_, rfl, fun hcontra => RebaseAction.noConfusion hcontra,
          fun t ht => ?_, fun t ht => RebaseAction.noConfusion ht⟩
        injection ht with ht1
        exact ⟨ht1.symm, by simp [MTree.strip, hd]⟩
      | leaf l2 =>
        refine ⟨RebaseAction.notEqualNoop, ?_, fun hcontra => RebaseAction.noConfusion hcontra,
          fun t ht => RebaseAction.noConfusion ht,
          fun t ht => RebaseAction.noConfusion ht⟩
        rw [MTree.rebase_on.eq_def, if_neg hpo0]
      | packedLeaf p2 =>
        refine ⟨RebaseAction.notEqualNoop, ?_, fun hcontra => RebaseAction.noConfusion hcontra,
          fun t ht => RebaseAction.noConfusion ht,
          fun t ht => RebaseAction.noConfusion ht⟩
        rw [MTree.rebase_on.eq_def, if_neg hpo0]
      | node h2 l2 r2 =>
        refine ⟨RebaseAction.notEqualNoop, ?_, fun hcontra => RebaseAction.noConfusion hcontra,
          fun t ht => RebaseAction.noConfusion ht,
          fun t ht => RebaseAction.noConfusion ht⟩
        rw [MTree.rebase_on.eq_def, if_neg hpo0]
  | node h1 l1 r1 ihl ihr =>
    intro base la lb full_depth hwo hwb hha
    by_cases hpo0 : po (MTree.node h1 l1 r1) base = true
    · refine ⟨RebaseAction.equalNoop, ?_, fun _ => ?_,
        fun t ht => RebaseAction.noConfusion ht,
        fun t ht => RebaseAction.noConfusion ht⟩
      · rw [MTree.rebase_on.eq_def, if_pos hpo0]
      · rw [hpo _ _ hpo0]
    · obtain ⟨hpd1, hwl1, hwr1⟩ := hwo
      cases base with
      | leaf l2 =>
        obtain ⟨hpk2, hfd2, _⟩ := hwb
        rw [hfd2] at hpd1
        exact absurd hpd1 (Nat.not_lt_zero _)
      | packedLeaf p2 =>
        obtain ⟨⟨k2, hk2, _⟩, hfd2, _, _⟩ := hwb
        rw [hfd2] at hpd1
        exact absurd hpd1 (Nat.lt_irrefl _)
      | zero d2 =>
        refine ⟨RebaseAction.notEqualNoop, ?_, fun hcontra => RebaseAction.noConfusion hcontra,
          fun t ht => RebaseAction.noConfusion ht,
          fun t ht => RebaseAction.noConfusion ht⟩
        rw [MTree.rebase_on.eq_def, if_neg hpo0]
      | node h2 l2 r2 =>
        obtain ⟨hpd2, hwl2, hwr2⟩ := hwb
        have hfd : 0 < full_depth := Nat.lt_of_le_of_lt (Nat.zero_le _) hpd1
        obtain ⟨hroot, hhal, hhar⟩ := hha
        rw [MTree.rebase_on.eq_def, if_neg hpo0]
        dsimp only
        rw [if_pos hfd]
        by_cases hsc : h1 ≠ 0 ∧ h1 = h2 ∧
            (match some (la, lb) with
             | none => true
             | some p => decide (p.1 = p.2)) = true
        · rw [if_pos hsc]
          refine ⟨_, rfl, fun hcontra => RebaseAction.noConfusion hcontra,
            fun t ht => ?_, fun t ht => RebaseAction.noConfusion ht⟩
          injection ht with ht1
          obtain ⟨hne, heq, hlen⟩ := hsc
          have hlalb : la = lb := by simpa using hlen
          exact ⟨ht1.symm, hroot hne heq hlalb⟩
        · rw [if_neg hsc]
          simp only [Option.map]
          obtain ⟨actl, heql, hlA, hlB, hlC⟩ :=
            ihl l2 (min la (1 <<< (full_depth - 1)))
              (min lb (1 <<< (full_depth - 1))) (full_depth - 1) hwl1 hwl2 hhal
          obtain ⟨actr, heqr, hrA, hrB, hrC⟩ :=
            ihr r2 (la - min la (1 <<< (full_depth - 1)))
              (lb - min lb (1 <<< (full_depth - 1))) (full_depth - 1) hwr1 hwr2 hhar
          rw [heql, heqr]
          simp only [bind, Except.bind]
          cases actl with
          | notEqualNoop =>
            cases actr with
            | notEqualNoop =>
              exact ⟨_, rfl, fun hc => RebaseAction.noConfusion hc,
                fun t ht => RebaseAction.noConfusion ht,
                fun t ht => RebaseAction.noConfusion ht⟩
            | equalNoop =>
              exact ⟨_, rfl, fun hc => RebaseAction.noConfusion hc,
                fun t ht => RebaseAction.noConfusion ht,
                fun t ht => RebaseAction.noConfusion ht⟩
            | notEqualReplace nr =>
              refine ⟨_, rfl, fun hc => RebaseAction.noConfusion hc,
                fun t ht => RebaseAction.noConfusion ht, fun t ht => ?_⟩
              injection ht with ht1
              rw [← ht1]
              simp only [MTree.strip]
              rw [hrC nr rfl]
            | equalReplace nr =>
              refine ⟨_, rfl, fun hc => RebaseAction.noConfusion hc,
                fun t ht => RebaseAction.noConfusion ht, fun t ht => ?_⟩
              injection ht with ht1
              rw [← ht1]
              obtain ⟨hnr, hstr⟩ := hrB nr rfl
              simp only [MTree.strip]
              rw [hnr, ← hstr]
          | equalNoop =>
            cases actr with
            | notEqualNoop =>
              exact ⟨_, rfl, fun hc => RebaseAction.noConfusion hc,
                fun t ht => RebaseAction.noConfusion ht,
                fun t ht => RebaseAction.noConfusion ht⟩
            | equalNoop =>
              refine ⟨_, rfl, fun _ => ?_,
                fun t ht => RebaseAction.noConfusion ht,
                fun t ht => RebaseAction.noConfusion ht⟩
              simp only [MTree.strip]
              rw [hlA rfl, hrA rfl]
            | notEqualReplace nr =>
              refine ⟨_, rfl, fun hc => RebaseAction.noConfusion hc,
                fun t ht => RebaseAction.noConfusion ht, fun t ht => ?_⟩
              injection ht with ht1
              rw [← ht1]
              simp only [MTree.strip]
              rw [hrC nr rfl]
            | equalReplace nr =>
              refine ⟨_, rfl, fun hc => RebaseAction.noConfusion hc,
                fun t ht => RebaseAction.noConfusion ht, fun t ht => ?_⟩
              injection ht with ht1
              rw [← ht1]
              obtain ⟨hnr, hstr⟩ := hrB nr rfl
              simp only [MTree.strip]
              rw [hnr, ← hstr]
          | notEqualReplace nl =>
            cases actr with
            | notEqualNoop =>
              refine ⟨_, rfl, fun hc => RebaseAction.noConfusion hc,
                fun t ht => RebaseAction.noConfusion ht, fun t ht => ?_⟩
              injection ht with ht1
              rw [← ht1]
              simp only [MTree.strip]
              rw [hlC nl rfl]
            | equalNoop =>
              refine ⟨_, rfl, fun hc => RebaseAction.noConfusion hc,
                fun t ht => RebaseAction.noConfusion ht, fun t ht => ?_⟩
              injection ht with ht1
              rw [← ht1]
              simp only [MTree.strip]
              rw [hlC nl rfl]
            | notEqualReplace nr =>
              refine ⟨_, rfl, fun hc => RebaseAction.noConfusion hc,
                fun t ht => RebaseAction.noConfusion ht, fun t ht => ?_⟩
              injection ht with ht1
              rw [← ht1]
              simp only [MTree.strip]
              rw [hlC nl rfl, hrC nr rfl]
            | equalReplace nr =>
              refine ⟨_, rfl, fun hc => RebaseAction.noConfusion hc,
                fun t ht => RebaseAction.noConfusion ht, fun t ht => ?_⟩
              injection ht with ht1
              rw [← ht1]
              obtain ⟨hnr, hstr⟩ := hrB nr rfl
              simp only [MTree.strip]
              rw [hlC nl rfl, hnr, ← hstr]
          | equalReplace nl =>
            cases actr with
            | notEqualNoop =>
              refine ⟨_, rfl, fun hc => RebaseAction.noConfusion hc,
                fun t ht => RebaseAction.noConfusion ht, fun t ht => ?_⟩
              injection ht with ht1
              rw [← ht1]
              obtain ⟨hnl, hstl⟩ := hlB nl rfl
              simp only [MTree.strip]
              rw [hnl, ← hstl]
            | notEqualReplace nr =>
              refine ⟨_, rfl, fun hc => RebaseAction.noConfusion hc,
                fun t ht => RebaseAction.noConfusion ht, fun t ht => ?_⟩
              injection ht with ht1
              rw [← ht1]
              obtain ⟨hnl, hstl⟩ := hlB nl rfl
              simp only [MTree.strip]
              rw [hnl, ← hstl, hrC nr rfl]
            | equalNoop =>
              refine ⟨_, rfl, fun hc => RebaseAction.noConfusion hc,
                fun t ht => ?_, fun t ht => RebaseAction.noConfusion ht⟩
              injection ht with ht1
              obtain ⟨hnl, hstl⟩ := hlB nl rfl
              refine ⟨ht1.symm, ?_⟩
              simp only [MTree.strip]
              rw [hstl, hrA rfl]
            | equalReplace nr =>
              refine ⟨_, rfl, fun hc => RebaseAction.noConfusion hc,
                fun t ht => ?_, fun t ht => RebaseAction.noConfusion ht⟩
              injection ht with ht1
              obtain ⟨hnl, hstl⟩ := hlB nl rfl
              obtain ⟨hnr, hstr⟩ := hrB nr rfl
              refine ⟨ht1.symm, ?_⟩
              simp only [MTree.strip]
              rw [hstl, hstr]

theorem IterS.next_go_strip {T : Type} :
    ∀ (fuel : Nat) (it : IterS T),
      IterS.next_go fuel it.strip_stack
        = (IterS.next_go fuel it).map (fun p => (p.1, p.2.strip_stack)) := by
  intro fuel
  induction fuel with
  | zero => intro it; rfl
  | succ fuel ih =>
    intro it
    rw [IterS.next_go, IterS.next_go]
    by_cases hidx : it.index ≥ it.length
    · rw [if_pos (by simpa [IterS.strip_stack] using hidx),
        if_pos hidx]
      rfl
    · rw [if_neg (by simpa [IterS.strip_stack] using hidx), if_neg hidx]
      cases hst : it.stack with
      | nil => simp [IterS.strip_stack, hst]
      | cons hd tl =>
        cases hd with
        | zero d => simp [IterS.strip_stack, hst, MTree.strip]
        | leaf l =>
          simp [IterS.strip_stack, hst, MTree.strip, List.map_drop]
        | packedLeaf pl =>
          simp only [IterS.strip_stack, hst, List.map_cons, MTree.strip]
          cases hv : pl.values.get? (it.index % it.packing_factor) with
          | none => simp [hv]
          | some value =>
            simp only [hv, Option.map]
            by_cases hend : it.index % it.packing_factor + 1 = it.packing_factor
            · simp [hend, MTree.strip, List.map_drop]
            · simp [hend, MTree.strip]
        | node h left right =>
          simp only [IterS.strip_stack, hst, List.map_cons, MTree.strip]
          by_cases hbit :
              (it.index >>> (it.full_depth - (MTree.node h left right :: tl).length
                + it.packing_depth)) % 2 = 0
          · rw [if_pos (by simpa [hst] using hbit), if_pos (by simpa [hst] using hbit)]
            have := ih { it with stack := left :: it.stack }
            simpa [IterS.strip_stack, hst] using this
          · rw [if_neg (by simpa [hst] using hbit), if_neg (by simpa [hst] using hbit)]
            have := ih { it with stack := right :: it.stack }
            simpa [IterS.strip_stack, hst] using this

theorem IterS.next_strip_stack {T : Type} (it : IterS T) :
    it.strip_stack.next = it.next.map (fun p => (p.1, p.2.strip_stack)) := by
  unfold IterS.next
  rw [show it.strip_stack.full_depth + it.strip_stack.packing_depth + 2
      = it.full_depth + it.packing_depth + 2 from rfl]
  exact IterS.next_go_strip _ it

theorem InterfaceIter.next_strip_tree {T : Type} (it : InterfaceIter T) :
    it.strip_tree.next
      = match it.next with
        | Panicky.panicked => Panicky.panicked
        | Panicky.ok p => Panicky.ok (p.1, p.2.strip_tree) := by
  obtain ⟨ti, upd, idx, len⟩ := it
  show InterfaceIter.next ⟨ti.strip_stack, upd, idx, len⟩ = _
  unfold InterfaceIter.next
  rw [show (⟨ti.strip_stack, upd, idx, len⟩ : InterfaceIter T).tree_iter
      = ti.strip_stack from rfl,
    show ti.strip_stack.index = ti.index from rfl,
    show ti.strip_stack.length = ti.length from rfl,
    IterS.next_strip_stack]
  by_cases hguard : ti.index < ti.length ∧ ti.index ≠ idx
  · rw [if_pos hguard, if_pos hguard]
  · rw [if_neg hguard, if_neg hguard]
    cases hn : ti.next with
    | none => rfl
    | some p => rfl

theorem InterfaceIter.to_list_strip {T : Type} :
    ∀ (fuel : Nat) (it : InterfaceIter T),
      InterfaceIter.to_list fuel it.strip_tree = InterfaceIter.to_list fuel it := by
  intro fuel
  induction fuel with
  | zero => intro it; rfl
  | succ fuel ih =>
    intro it
    rw [InterfaceIter.to_list, InterfaceIter.to_list, InterfaceIter.next_strip_tree]
    cases hn : it.next with
    | panicked => rfl
    | ok p =>
      obtain ⟨v, it1⟩ := p
      cases v with
      | none => rfl
      | some w =>
        simp only
        rw [ih it1]

theorem MTree.strip_idem {T : Type} (t : MTree T) : t.strip.strip = t.strip := by
  induction t with
  | leaf l => rfl
  | packedLeaf pl => rfl
  | node h l r ihl ihr => simp [MTree.strip, ihl, ihr]
  | zero d => rfl

/-- C3: for two well-formed lists of the same type (same depth and packing),
under a sound pointer-equality oracle and the hash-collision-freeness
idealization, `rebase_on` succeeds, and the rebased list is semantically equal
to its pre-rebase value: the backing tree is unchanged modulo hash caches,
the stored length, depth and pending updates are untouched, every `get`
observation through the backing is unchanged, the effective length is
unchanged, and iteration from any index yields the same elements. -/
theorem C3_rebase_fidelity {T : Type} [DecidableEq T] (pk : Option Nat)
    (po : MTree T → MTree T → Bool)
    (hpo : ∀ a b, po a b = true → a = b) (l base : LList T)
    (hwl : l.interface.backing.tree.wfT pk
      (l.interface.backing.depth + l.interface.backing.packing_depth)
      l.interface.backing.length)
    (hwb : base.interface.backing.tree.wfT pk
      (l.interface.backing.depth + l.interface.backing.packing_depth)
      base.interface.backing.length)
    (hha : MTree.hash_agree l.interface.backing.tree base.interface.backing.tree
      (l.interface.backing.depth + l.interface.backing.packing_depth)
      l.interface.backing.length base.interface.backing.length) :
    ∃ l2, LList.rebase_on po l base = Except.ok l2 ∧
      l2.interface.backing.tree.strip = l.interface.backing.tree.strip ∧
      l2.interface.backing.length = l.interface.backing.length ∧
      l2.interface.backing.depth = l.interface.backing.depth ∧
      l2.interface.backing.packing_depth = l.interface.backing.packing_depth ∧
      l2.interface.updates = l.interface.updates ∧
      l2.len = l.len ∧
      (∀ i, ListInner.get pk l2.interface.backing i
        = ListInner.get pk l.interface.backing i) ∧
      (∀ fuel i, InterfaceIter.to_list fuel (l2.interface.iter_from pk i)
        = InterfaceIter.to_list fuel (l.interface.iter_from pk i)) := by
  obtain ⟨act, heq, hA, hB, hC⟩ :=
    MTree.rebase_on_spec pk po hpo l.interface.backing.tree
      base.interface.backing.tree l.interface.backing.length
      base.interface.backing.length
      (l.interface.backing.depth + l.interface.backing.packing_depth) hwl hwb hha
  have main : ∃ l2, LList.rebase_on po l base = Except.ok l2 ∧
      l2.interface.backing.tree.strip = l.interface.backing.tree.strip ∧
      l2.interface.backing.length = l.interface.backing.length ∧
      l2.interface.backing.depth = l.interface.backing.depth ∧
      l2.interface.backing.packing_depth = l.interface.backing.packing_depth ∧
      l2.interface.updates = l.interface.updates := by
    unfold LList.rebase_on
    rw [heq]
    cases act with
    | notEqualNoop =>
      exact ⟨l, rfl, rfl, rfl, rfl, rfl, rfl⟩
    | equalNoop =>
      exact ⟨l, rfl, rfl, rfl, rfl, rfl, rfl⟩
    | equalReplace t =>
      obtain ⟨hteq, hstr⟩ := hB t rfl
      exact ⟨_, rfl, by rw [hteq, ← hstr], rfl, rfl, rfl, rfl⟩
    | notEqualReplace t =>
      exact ⟨_, rfl, hC t rfl, rfl, rfl, rfl, rfl⟩
  obtain ⟨l2, hok, hstrip, hlen, hdep, hpd, hupd⟩ := main
  have hlen2 : l2.len = l.len := by
    simp [LList.len, Interface.len, hlen, hupd]
  refine ⟨l2, hok, hstrip, hlen, hdep, hpd, hupd, hlen2, fun i => ?_, fun fuel i => ?_⟩
  · unfold ListInner.get
    rw [hlen]
    by_cases hi : i < l.interface.backing.length
    · rw [if_pos hi, if_pos hi, ← MTree.strip_get_recursive pk l2.interface.backing.tree,
        ← MTree.strip_get_recursive pk l.interface.backing.tree, hstrip, hdep, hpd]
    · rw [if_neg hi, if_neg hi]
  · have hstrips : (l2.interface.iter_from pk i).strip_tree
        = (l.interface.iter_from pk i).strip_tree := by
      unfold InterfaceIter.strip_tree Interface.iter_from ListInner.iter_from
        IterS.from_index IterS.strip_stack
      simp only [List.map, LList.len] at *
      rw [hstrip, hlen, hdep, hupd]
      have : l2.interface.len = l.interface.len := hlen2
      rw [this]
    calc InterfaceIter.to_list fuel (l2.interface.iter_from pk i)
        = InterfaceIter.to_list fuel (l2.interface.iter_from pk i).strip_tree :=
          (InterfaceIter.to_list_strip fuel _).symm
      _ = InterfaceIter.to_list fuel (l.interface.iter_from pk i).strip_tree := by
          rw [hstrips]
      _ = InterfaceIter.to_list fuel (l.interface.iter_from pk i) :=
          InterfaceIter.to_list_strip fuel _

/-- Witness for C3: two structurally equal singleton unpacked lists with zero
hash caches; the oracle answers false everywhere. -/
theorem C3_rebase_fidelity_witness :
    ∃ l2, LList.rebase_on (fun _ _ => false)
        (LList.from_parts none (MTree.leafC 5) 0 1 : LList Nat)
        (LList.from_parts none (MTree.leafC 5) 0 1) = Except.ok l2 ∧
      l2.interface.backing.tree.strip = (MTree.leafC (5 : Nat)).strip ∧
      l2.interface.backing.length = 1 := by
  obtain ⟨l2, hok, hstrip, hlen, _⟩ :=
    C3_rebase_fidelity none (fun _ _ => false) (fun a b h => Bool.noConfusion h)
      (LList.from_parts none (MTree.leafC 5) 0 1 : LList Nat)
      (LList.from_parts none (MTree.leafC 5) 0 1)
      (by simp [LList.from_parts, Interface.new, MTree.wfT, MTree.leafC,
        packing_depth_of, opt_packing_depth])
      (by simp [LList.from_parts, Interface.new, MTree.wfT, MTree.leafC,
        packing_depth_of, opt_packing_depth])
      (by simp [LList.from_parts, Interface.new, MTree.hash_agree, MTree.leafC])
  exact ⟨l2, hok, hstrip, hlen⟩

theorem UMap.get_map {A B : Type} (f : A → B) (u : UMap A) (k : Nat) :
    (u.mapU f).get k = (u.get k).map f := by
  induction u with
  | nil => rfl
  | cons e rest ih =>
    simp only [UMap.mapU, UMap.get, List.map, List.find?] at *
    by_cases hk : e.1 == k
    · simp [hk]
    · simp only [hk] at *
      exact ih

theorem UMap.insertU_map {A B : Type} (f : A → B) (u : UMap A) (k : Nat) (v : A) :
    (u.mapU f).insertU k (f v) = (u.insertU k v).mapU f := by
  induction u with
  | nil => rfl
  | cons e rest ih =>
    simp only [UMap.mapU, List.map, UMap.insertU]
    by_cases hk : e.1 = k
    · simp [hk, UMap.insertU, UMap.mapU]
    · simp only [hk, if_false, UMap.mapU] at *
      simp [ih]

theorem UMap.isEmpty_map {A B : Type} (f : A → B) (u : UMap A) :
    (u.mapU f).isEmpty = u.isEmpty := by
  cases u <;> rfl

theorem UMap.max_index_map {A B : Type} (f : A → B) (u : UMap A) :
    (u.mapU f).max_index = u.max_index := by
  unfold UMap.max_index
  rw [UMap.isEmpty_map]
  by_cases he : u.isEmpty
  · simp [he]
  · simp only [he, if_false]
    unfold UMap.mapU
    rw [List.foldl_map]

theorem UMap.range_entries_map {A B : Type} (f : A → B) (u : UMap A)
    (start stop : Nat) :
    (u.mapU f).range_entries start stop
      = (u.range_entries start stop).map (fun p => (p.1, f p.2)) := by
  unfold UMap.range_entries
  rw [List.map_filterMap]
  apply List.filterMap_congr
  intro k _
  rw [UMap.get_map]
  cases u.get k <;> rfl

theorem UMap.has_in_range_map {A B : Type} (f : A → B) (u : UMap A)
    (start stop : Nat) :
    (u.mapU f).has_in_range start stop = u.has_in_range start stop := by
  unfold UMap.has_in_range
  rw [UMap.range_entries_map]
  cases u.range_entries start stop <;> rfl

theorem updated_length_map {A B : Type} (f : A → B) (prev : Nat) (u : UMap A) :
    updated_length prev (u.mapU f) = updated_length prev u := by
  unfold updated_length
  rw [UMap.max_index_map]

theorem PLeaf.insert_mut_map {A B : Type} (f : A → B) (l : PLeaf A)
    (s : Nat) (v : A) :
    (l.mapP f).insert_mut s (f v) = (l.insert_mut s v).map (PLeaf.mapP f) := by
  unfold PLeaf.insert_mut PLeaf.mapP
  simp only [List.length_map]
  by_cases h1 : s = l.values.length
  · simp [h1, Except.map]
  · rw [if_neg h1, if_neg h1]
    by_cases h2 : s < l.values.length
    · simp [h2, Except.map, List.map_set]
    · simp [h2, Except.map]

theorem PLeaf.push_mapP {A B : Type} (pk : Option Nat) (f : A → B) (l : PLeaf A)
    (v : A) :
    (l.mapP f).push pk (f v) = (l.push pk v).map (PLeaf.mapP f) := by
  unfold PLeaf.push PLeaf.mapP
  simp only [List.length_map]
  by_cases h1 : l.values.length = packing_factor_of pk
  · simp [h1, Except.map]
  · simp [h1, Except.map]

theorem PLeaf.update_mapP {A B : Type} (pk : Option Nat) (f : A → B)
    (l : PLeaf A) (pfx : Nat) (hash : Hash) (u : UMap A) :
    (l.mapP f).update pk pfx hash (u.mapU f)
      = (l.update pk pfx hash u).map (PLeaf.mapP f) := by
  unfold PLeaf.update
  dsimp only
  rw [UMap.range_entries_map]
  have hstart : ({ hash := hash, values := (l.mapP f).values } : PLeaf B)
      = PLeaf.mapP f { hash := hash, values := l.values } := rfl
  rw [hstart]
  generalize ({ hash := hash, values := l.values } : PLeaf A) = init
  induction u.range_entries pfx (pfx + packing_factor_of pk) generalizing init with
  | nil => rfl
  | cons e rest ih =>
    simp only [List.map, List.foldlM]
    rw [PLeaf.insert_mut_map]
    cases hmid : init.insert_mut (e.1 % packing_factor_of pk) e.2 with
    | error e2 => simp [Except.map, bind, Except.bind]
    | ok mid =>
      simp only [Except.map, bind, Except.bind]
      exact ih mid

theorem MTree.compute_len_map {A B : Type} (f : A → B) (t : MTree A) :
    (t.mapT f).compute_len = t.compute_len := by
  induction t with
  | leaf l => rfl
  | packedLeaf pl => simp [MTree.mapT, MTree.compute_len, PLeaf.mapP]
  | node h l r ihl ihr => simp [MTree.mapT, MTree.compute_len, ihl, ihr]
  | zero d => rfl

theorem MTree.with_updated_leaves_go_map {A B : Type} (pk : Option Nat)
    (f : A → B) :
    ∀ (fuel : Nat) (t : MTree A) (u : UMap A) (pfx depth : Nat)
      (hashes : Option HMap),
      MTree.with_updated_leaves_go pk fuel (t.mapT f) (u.mapU f) pfx depth hashes
        = (MTree.with_updated_leaves_go pk fuel t u pfx depth hashes).map
            (MTree.mapT f) := by
  intro fuel
  induction fuel with
  | zero => intro t u pfx depth hashes; rfl
  | succ fuel ih =>
    intro t u pfx depth hashes
    cases t with
    | leaf l =>
      cases depth with
      | zero =>
        simp only [MTree.mapT]
        rw [MTree.with_updated_leaves_go, MTree.with_updated_leaves_go]
        rw [UMap.get_map]
        cases u.get pfx with
        | none => rfl
        | some v => rfl
      | succ d => rfl
    | packedLeaf pl =>
      cases depth with
      | zero =>
        simp only [MTree.mapT]
        rw [MTree.with_updated_leaves_go, MTree.with_updated_leaves_go]
        rw [PLeaf.update_mapP]
        cases pl.update pk pfx ((opt_hash hashes 0 pfx).getD 0) u with
        | error e => rfl
        | ok r => rfl
      | succ d => rfl
    | node h0 left right =>
      cases depth with
      | zero => rfl
      | succ new_depth =>
        simp only [MTree.mapT]
        rw [MTree.with_updated_leaves_go, MTree.with_updated_leaves_go]
        dsimp only
        rw [UMap.has_in_range_map, UMap.has_in_range_map]
        by_cases hl : u.has_in_range pfx
            (pfx ||| (1 <<< (new_depth + packing_depth_of pk))) = true
        · rw [hl]
          by_cases hr : u.has_in_range
              (pfx ||| (1 <<< (new_depth + packing_depth_of pk)))
              (pfx + (1 <<< (new_depth + 1 + packing_depth_of pk))) = true
          · rw [hr]
            simp only [Bool.not_true, Bool.false_and, Bool.false_eq_true, if_false,
              if_true, bind, Except.bind]
            rw [ih left u pfx new_depth hashes]
            cases MTree.with_updated_leaves_go pk fuel left u pfx new_depth hashes with
            | error e => simp [Except.map]
            | ok nl =>
              simp only [Except.map]
              rw [ih right u _ new_depth hashes]
              cases MTree.with_updated_leaves_go pk fuel right u
                  (pfx ||| (1 <<< (new_depth + packing_depth_of pk)))
                  new_depth hashes with
              | error e => rfl
              | ok nr => rfl
          · rw [Bool.not_eq_true] at hr
            rw [hr]
            simp only [Bool.not_true, Bool.false_and, Bool.false_eq_true, if_false,
              if_true, bind, Except.bind]
            rw [ih left u pfx new_depth hashes]
            cases MTree.with_updated_leaves_go pk fuel left u pfx new_depth hashes with
            | error e => rfl
            | ok nl => rfl
        · rw [Bool.not_eq_true] at hl
          rw [hl]
          by_cases hr : u.has_in_range
              (pfx ||| (1 <<< (new_depth + packing_depth_of pk)))
              (pfx + (1 <<< (new_depth + 1 + packing_depth_of pk))) = true
          · rw [hr]
            simp only [Bool.not_false, Bool.true_and, Bool.not_true, if_false,
              Bool.false_eq_true, bind, Except.bind, if_true]
            rw [ih right u _ new_depth hashes]
            cases MTree.with_updated_leaves_go pk fuel right u
                (pfx ||| (1 <<< (new_depth + packing_depth_of pk)))
                new_depth hashes with
            | error e => rfl
            | ok nr => rfl
          · rw [Bool.not_eq_true] at hr
            rw [hr]
            rfl
    | zero zero_depth =>
      simp only [MTree.mapT]
      rw [MTree.with_updated_leaves_go, MTree.with_updated_leaves_go]
      dsimp only
      by_cases hzd : zero_depth = depth
      · rw [if_pos hzd, if_pos hzd]
        by_cases hd0 : depth = 0
        · rw [if_pos hd0, if_pos hd0]
          cases hpk : pk.isSome with
          | true =>
            rw [if_pos (rfl : true = true), if_pos (rfl : true = true)]
            have hemp : (PLeaf.empty : PLeaf B) = PLeaf.mapP f PLeaf.empty := rfl
            rw [hemp, PLeaf.update_mapP]
            cases PLeaf.update pk PLeaf.empty pfx
                ((opt_hash hashes depth pfx).getD 0) u with
            | error e => rfl
            | ok r => rfl
          | false =>
            rw [if_neg (fun hc => Bool.noConfusion hc),
              if_neg (fun hc => Bool.noConfusion hc)]
            rw [UMap.get_map]
            cases u.get pfx with
            | none => rfl
            | some v => rfl
        · rw [if_neg hd0, if_neg hd0]
          have : (MTree.nodeC (MTree.zeroT (depth - 1)) (MTree.zeroT (depth - 1))
              ((opt_hash hashes depth pfx).getD 0) : MTree B)
              = MTree.mapT f (MTree.nodeC (MTree.zeroT (depth - 1))
                  (MTree.zeroT (depth - 1)) ((opt_hash hashes depth pfx).getD 0)) := rfl
          rw [this, ih]
      · rw [if_neg hzd, if_neg hzd]
        rfl

theorem MTree.with_updated_leaves_map {A B : Type} (pk : Option Nat)
    (f : A → B) (t : MTree A) (u : UMap A) (pfx depth : Nat)
    (hashes : Option HMap) :
    (t.mapT f).with_updated_leaves pk (u.mapU f) pfx depth hashes
      = (t.with_updated_leaves pk u pfx depth hashes).map (MTree.mapT f) :=
  MTree.with_updated_leaves_go_map pk f (2 * depth + 2) t u pfx depth hashes

theorem ListInner.update_mapI {A B : Type} (pk : Option Nat) (N : Nat)
    (f : A → B) (inner : ListInner A) (u : UMap A) (hashes : Option HMap) :
    ListInner.update pk N (inner.mapI f) (u.mapU f) hashes
      = ((ListInner.update pk N inner u hashes).1.mapI f,
         (ListInner.update pk N inner u hashes).2) := by
  unfold ListInner.update
  rw [UMap.max_index_map]
  cases u.max_index with
  | none => rfl
  | some m =>
    simp only
    by_cases hN : m ≥ N
    · rw [if_pos hN, if_pos hN]
    · rw [if_neg hN, if_neg hN]
      have hlen : (inner.mapI f).length = inner.length := rfl
      have htr : (inner.mapI f).tree = inner.tree.mapT f := rfl
      have hdep : (inner.mapI f).depth = inner.depth := rfl
      simp only [hlen, htr, hdep]
      rw [updated_length_map, MTree.with_updated_leaves_map]
      cases inner.tree.with_updated_leaves pk u 0 inner.depth hashes with
      | error e => rfl
      | ok t => rfl

theorem Interface.len_map {A B : Type} (f : A → B) (i : Interface A) :
    (i.mapIf f).len = i.len := by
  unfold Interface.len Interface.mapIf
  exact updated_length_map f _ _

theorem Interface.push_mapIf {A B : Type} (N : Nat) (f : A → B)
    (i : Interface A) (v : A) :
    (i.mapIf f).push N (f v) = (i.push N v).map (Interface.mapIf f) := by
  unfold Interface.push
  rw [Interface.len_map]
  unfold ListInner.validate_push
  dsimp only
  split
  · rfl
  · simp only [bind, Except.bind, Except.map]
    unfold Interface.mapIf
    rw [UMap.insertU_map]

theorem Interface.apply_updates_mapIf {A B : Type} (pk : Option Nat) (N : Nat)
    (f : A → B) (i : Interface A) :
    (i.mapIf f).apply_updates pk N
      = ((i.apply_updates pk N).1.mapIf f, (i.apply_updates pk N).2) := by
  unfold Interface.apply_updates
  have hupd : (i.mapIf f).updates = i.updates.mapU f := rfl
  have hback : (i.mapIf f).backing = i.backing.mapI f := rfl
  simp only [hupd, hback, UMap.is_empty]
  rw [UMap.isEmpty_map]
  by_cases he : i.updates.isEmpty
  · simp only [he, Bool.not_true, Bool.false_eq_true, if_false]
  · simp only [he, Bool.not_false, if_true]
    rw [ListInner.update_mapI]
    rfl

theorem LList.push_mapL {A B : Type} (N : Nat) (f : A → B) (l : LList A) (v : A) :
    (l.mapL f).push N (f v) = (l.push N v).map (LList.mapL f) := by
  unfold LList.push
  have : (l.mapL f).interface = l.interface.mapIf f := rfl
  rw [this, Interface.push_mapIf]
  cases l.interface.push N v with
  | error e => rfl
  | ok i => rfl

theorem LList.apply_updates_mapL {A B : Type} (pk : Option Nat) (N : Nat)
    (f : A → B) (l : LList A) :
    (l.mapL f).apply_updates pk N
      = ((l.apply_updates pk N).1.mapL f, (l.apply_updates pk N).2) := by
  unfold LList.apply_updates
  have : (l.mapL f).interface = l.interface.mapIf f := rfl
  rw [this, Interface.apply_updates_mapIf]
  rfl

theorem LList.empty_map {A B : Type} (pk : Option Nat) (N : Nat) (f : A → B) :
    (LList.empty pk N : LList A).mapL f = (LList.empty pk N : LList B) := rfl

theorem LList.try_from_iter_slow_map {A B : Type} (pk : Option Nat) (N : Nat)
    (f : A → B) (v : List A) :
    LList.try_from_iter_slow pk N (v.map f)
      = (LList.try_from_iter_slow pk N v).map (LList.mapL f) := by
  unfold LList.try_from_iter_slow
  have hfold : ∀ (w : List A) (l : LList A),
      (w.map f).foldlM (fun (l : LList B) x => l.push N x) (l.mapL f)
        = (w.foldlM (fun (l : LList A) x => l.push N x) l).map (LList.mapL f) := by
    intro w
    induction w with
    | nil => intro l; rfl
    | cons x rest ih =>
      intro l
      simp only [List.map, List.foldlM]
      rw [LList.push_mapL]
      cases l.push N x with
      | error e => simp [Except.map, bind, Except.bind]
      | ok l1 =>
        simp only [Except.map, bind, Except.bind]
        exact ih l1
  rw [← LList.empty_map pk N f, hfold]
  cases List.foldlM (fun (l : LList A) x => l.push N x) (LList.empty pk N) v with
  | error e => rfl
  | ok l =>
    simp only [Except.map, bind, Except.bind]
    rw [LList.apply_updates_mapL]
    rcases hp : l.apply_updates pk N with ⟨l1, res⟩
    cases res with
    | none => rfl
    | some e => rfl

theorem Builder.new_map {A B : Type} (pk : Option Nat) (depth level : Nat)
    (f : A → B) :
    (Builder.new pk depth level : Except Err (Builder A)).map (Builder.mapB f)
      = (Builder.new pk depth level : Except Err (Builder B)) := by
  unfold Builder.new
  dsimp only
  split
  · rfl
  · rfl

theorem Builder.merge_loop_map {A B : Type} (f : A → B) :
    ∀ (m : Nat) (stack : List (MTree A)) (top : MTree A),
    Builder.merge_loop m (stack.map (MTree.mapT f)) (top.mapT f)
      = (Builder.merge_loop m stack top).map
          (fun p => (p.1.mapT f, p.2.map (MTree.mapT f))) := by
  intro m
  induction m with
  | zero => intro stack top; rfl
  | succ m ih =>
    intro stack top
    cases stack with
    | nil => rfl
    | cons left rest =>
      simp only [List.map, Builder.merge_loop]
      exact ih rest (MTree.nodeC left top 0)

theorem Builder.push_mapB {A B : Type} (f : A → B) (b : Builder A) (v : A) :
    (b.mapB f).push (f v) = (b.push v).map (Builder.mapB f) := by
  unfold Builder.push
  have hlen : (b.mapB f).length = b.length := rfl
  have hcap : (b.mapB f).capacity = b.capacity := rfl
  have hpf : (b.mapB f).packing_factor = b.packing_factor := rfl
  have hpd : (b.mapB f).packing_depth = b.packing_depth := rfl
  have hst : (b.mapB f).stack = b.stack.map (MTree.mapT f) := rfl
  rw [hlen, hcap, hpf, hpd, hst]
  by_cases hfull : b.length = b.capacity
  · simp [hfull, Except.map, throw, throwThe, MonadExceptOf.throw, bind, Except.bind]
  · simp only [hfull, if_neg, if_false]
    cases hpk : b.packing_factor with
    | none =>
      simp only [bind, Except.bind]
      have h1 : MTree.leafC (f v) = MTree.mapT f (MTree.leafC v) := rfl
      rw [h1, Builder.merge_loop_map]
      cases Builder.merge_loop (trailing_zeros (b.length + 1) - b.packing_depth)
          b.stack (MTree.leafC v) with
      | error e => rfl
      | ok p => rfl
    | some packing_factor =>
      by_cases hmod : b.length % packing_factor = 0
      · simp only [hmod, if_pos, bind, Except.bind]
        have h1 : MTree.packedLeaf (PLeaf.single (f v))
            = MTree.mapT f (MTree.packedLeaf (PLeaf.single v)) := rfl
        rw [h1, Builder.merge_loop_map]
        cases Builder.merge_loop (trailing_zeros (b.length + 1) - b.packing_depth)
            b.stack (MTree.packedLeaf (PLeaf.single v)) with
        | error e => rfl
        | ok p => rfl
      · simp only [hmod, if_neg, if_false]
        cases hstk : b.stack with
        | nil => rfl
        | cons hd rest =>
          cases hd with
          | leaf l => rfl
          | node h l r => rfl
          | zero d => rfl
          | packedLeaf pl =>
            simp only [List.map, MTree.mapT, bind, Except.bind]
            rw [PLeaf.push_mapP]
            cases pl.push (some packing_factor) v with
            | error e => rfl
            | ok pl1 =>
              simp only [Except.map]
              have h1 : MTree.packedLeaf (PLeaf.mapP f pl1)
                  = MTree.mapT f (MTree.packedLeaf pl1) := rfl
              rw [h1, Builder.merge_loop_map]
              cases Builder.merge_loop (trailing_zeros (b.length + 1) - b.packing_depth)
                  rest (MTree.packedLeaf pl1) with
              | error e => rfl
              | ok p => rfl

theorem Builder.skip_merge_loop_map {A B : Type} (f : A → B)
    (next packing_depth : Nat) :
    ∀ (m i : Nat) (stack : List (MTree A)),
    Builder.skip_merge_loop next packing_depth m i (stack.map (MTree.mapT f))
      = (Builder.skip_merge_loop next packing_depth m i stack).map
          (List.map (MTree.mapT f)) := by
  intro m
  induction m with
  | zero => intro i stack; rfl
  | succ m ih =>
    intro i stack
    show Builder.skip_merge_loop next packing_depth (m + 1) i (stack.map (MTree.mapT f))
        = _
    rw [Builder.skip_merge_loop.eq_def]
    conv_rhs => rw [Builder.skip_merge_loop.eq_def]
    by_cases hbit : (next >>> (i + packing_depth)) % 2 = 1
    · simp only [hbit, if_pos]
      cases stack with
      | nil => rfl
      | cons right rest0 =>
        cases rest0 with
        | nil => rfl
        | cons left rest =>
          simp only [List.map]
          have h1 : (MTree.nodeC (MTree.mapT f left) (MTree.mapT f right) 0
              :: rest.map (MTree.mapT f))
              = (MTree.nodeC left right 0 :: rest).map (MTree.mapT f) := rfl
          rw [h1]
          exact ih (i + 1) _
    · simp only [hbit, if_neg, if_false]
      rfl

theorem Builder.finish_merge_loop_map {A B : Type} (f : A → B)
    (shifted packing_depth : Nat) :
    ∀ (m i : Nat) (stack : List (MTree A)),
    Builder.finish_merge_loop shifted packing_depth m i (stack.map (MTree.mapT f))
      = (Builder.finish_merge_loop shifted packing_depth m i stack).map
          (List.map (MTree.mapT f)) := by
  intro m
  induction m with
  | zero => intro i stack; rfl
  | succ m ih =>
    intro i stack
    show Builder.finish_merge_loop shifted packing_depth (m + 1) i (stack.map (MTree.mapT f))
        = _
    rw [Builder.finish_merge_loop.eq_def]
    conv_rhs => rw [Builder.finish_merge_loop.eq_def]
    by_cases hbit : (shifted >>> (i + packing_depth)) % 2 = 1
    · simp only [hbit, if_pos]
      cases stack with
      | nil => rfl
      | cons right rest0 =>
        cases rest0 with
        | nil => rfl
        | cons left rest =>
          simp only [List.map]
          have h1 : (MTree.nodeC (MTree.mapT f left) (MTree.mapT f right) 0
              :: rest.map (MTree.mapT f))
              = (MTree.nodeC left right 0 :: rest).map (MTree.mapT f) := rfl
          rw [h1]
          exact ih (i + 1) _
    · simp only [hbit, if_neg, if_false]
      rfl

theorem Builder.finish_loop_map {A B : Type} (f : A → B)
    (b_depth level packing_depth capacity : Nat) :
    ∀ (fuel : Nat) (stack : List (MTree A)) (next : Nat),
    Builder.finish_loop b_depth level packing_depth capacity fuel
        (stack.map (MTree.mapT f)) next
      = (Builder.finish_loop b_depth level packing_depth capacity fuel
          stack next).map (List.map (MTree.mapT f)) := by
  intro fuel
  induction fuel with
  | zero => intro stack next; rfl
  | succ fuel ih =>
    intro stack next
    rw [Builder.finish_loop, Builder.finish_loop]
    by_cases hdone : next <<< level = capacity
    · simp only [hdone, if_pos]
      rfl
    · simp only [hdone, if_neg, if_false]
      cases stack with
      | nil => rfl
      | cons stack_top rest =>
        simp only [List.map, bind, Except.bind]
        have h1 : (MTree.nodeC (MTree.mapT f stack_top)
            (MTree.zeroT (trailing_zeros next + level - packing_depth)) 0
            :: rest.map (MTree.mapT f))
            = (MTree.nodeC stack_top
                (MTree.zeroT (trailing_zeros next + level - packing_depth)) 0
                :: rest).map (MTree.mapT f) := rfl
        rw [h1, Builder.finish_merge_loop_map]
        cases Builder.finish_merge_loop (next <<< level) packing_depth
            (b_depth - (trailing_zeros next + level - packing_depth + 1))
            (trailing_zeros next + level - packing_depth + 1)
            (MTree.nodeC stack_top
              (MTree.zeroT (trailing_zeros next + level - packing_depth)) 0
              :: rest) with
        | error e => rfl
        | ok stack2 =>
          simp only [Except.map]
          exact ih stack2 _

theorem List.isEmpty_map_fun {A B : Type} (f : A → B) (l : List A) :
    (l.map f).isEmpty = l.isEmpty := by
  cases l <;> rfl

theorem Builder.finish_map {A B : Type} (f : A → B) (b : Builder A) :
    (b.mapB f).finish
      = b.finish.map (fun p => (p.1.mapT f, p.2)) := by
  unfold Builder.finish
  have hst : (b.mapB f).stack = b.stack.map (MTree.mapT f) := rfl
  have hlen : (b.mapB f).length = b.length := rfl
  have hlev : (b.mapB f).level = b.level := rfl
  have hdep : (b.mapB f).depth = b.depth := rfl
  have hpf : (b.mapB f).packing_factor = b.packing_factor := rfl
  have hpd : (b.mapB f).packing_depth = b.packing_depth := rfl
  have hcap : (b.mapB f).capacity = b.capacity := rfl
  rw [hst, hlen, hlev, hdep, hpf, hpd, hcap]
  rw [List.isEmpty_map_fun]
  by_cases hemp : b.stack.isEmpty
  · simp only [hemp, if_pos]
    rfl
  · simp only [hemp, Bool.false_eq_true, if_false, if_neg]
    cases hpk : b.packing_factor with
    | none =>
      simp only [bind, Except.bind, pure, Except.pure]
      rw [Builder.finish_loop_map]
      cases Builder.finish_loop b.depth b.level b.packing_depth b.capacity
          (b.capacity + 1) b.stack ((b.length + 1 <<< b.level - 1) / 1 <<< b.level) with
      | error e => rfl
      | ok stack2 =>
        simp only [Except.map]
        cases stack2 with
        | nil => rfl
        | cons tree rest =>
          simp only [List.map]
          rw [List.isEmpty_map_fun]
          by_cases hr : rest.isEmpty
          · simp [hr]
          · simp [hr]
    | some packing_factor =>
      by_cases hskip : ((packing_factor - b.length % packing_factor) % packing_factor > 0
          && b.level = 0 : Bool)
      · simp only [hskip, if_pos, bind, Except.bind, pure, Except.pure]
        rw [Builder.skip_merge_loop_map]
        cases Builder.skip_merge_loop
            ((b.length + 1 <<< b.level - 1) / 1 <<< b.level) b.packing_depth
            b.depth 0 b.stack with
        | error e => rfl
        | ok s =>
          simp only [Except.map]
          rw [Builder.finish_loop_map]
          cases Builder.finish_loop b.depth b.level b.packing_depth b.capacity
              (b.capacity + 1) s
              ((b.length + 1 <<< b.level - 1) / 1 <<< b.level
                + (packing_factor - b.length % packing_factor) % packing_factor) with
          | error e => rfl
          | ok stack2 =>
            simp only [Except.map]
            cases stack2 with
            | nil => rfl
            | cons tree rest =>
              simp only [List.map]
              rw [List.isEmpty_map_fun]
              by_cases hr : rest.isEmpty
              · simp [hr]
              · simp [hr]
      · simp only [hskip, Bool.false_eq_true, if_false, if_neg, bind, Except.bind,
          pure, Except.pure]
        rw [Builder.finish_loop_map]
        cases Builder.finish_loop b.depth b.level b.packing_depth b.capacity
            (b.capacity + 1) b.stack ((b.length + 1 <<< b.level - 1) / 1 <<< b.level) with
        | error e => rfl
        | ok stack2 =>
          simp only [Except.map]
          cases stack2 with
          | nil => rfl
          | cons tree rest =>
            simp only [List.map]
            rw [List.isEmpty_map_fun]
            by_cases hr : rest.isEmpty
            · simp [hr]
            · simp [hr]

theorem Builder.foldlM_push_map {A B : Type} (f : A → B) (v : List A) :
    ∀ (b : Builder A),
    (v.map f).foldlM Builder.push (b.mapB f)
      = (v.foldlM Builder.push b).map (Builder.mapB f) := by
  induction v with
  | nil => intro b; rfl
  | cons x rest ih =>
    intro b
    simp only [List.map, List.foldlM]
    rw [Builder.push_mapB]
    cases b.push x with
    | error e => simp [Except.map, bind, Except.bind]
    | ok b1 =>
      simp only [Except.map, bind, Except.bind]
      exact ih b1

theorem LList.try_from_iter_map {A B : Type} (pk : Option Nat) (N : Nat)
    (f : A → B) (v : List A) :
    LList.try_from_iter pk N (v.map f)
      = (LList.try_from_iter pk N v).map (LList.mapL f) := by
  unfold LList.try_from_iter
  rw [← Builder.new_map pk (LList.depthN pk N) 0 f]
  cases hb0 : (Builder.new pk (LList.depthN pk N) 0 : Except Err (Builder A)) with
  | error e => rfl
  | ok b0 =>
    simp only [Except.map, bind, Except.bind]
    rw [Builder.foldlM_push_map]
    cases v.foldlM Builder.push b0 with
    | error e => rfl
    | ok b =>
      simp only [Except.map]
      rw [Builder.finish_map]
      cases b.finish with
      | error e => rfl
      | ok p =>
        rcases p with ⟨tree, depth, length⟩
        simp only [Except.map]
        by_cases hlen : length > N
        · simp [hlen, throw, throwThe, MonadExceptOf.throw]
        · simp [hlen]
          rfl

theorem MTree.strip_mapT {A B : Type} (f : A → B) (t : MTree A) :
    (t.mapT f).strip = t.strip.mapT f := by
  induction t with
  | leaf l => rfl
  | packedLeaf pl => rfl
  | node h l r ihl ihr =>
    simp only [MTree.mapT, MTree.strip, ihl, ihr]
  | zero d => rfl

theorem LList.eqE_map {A B : Type} [DecidableEq A] [DecidableEq B] (f : A → B)
    (a b : Except Err (LList A)) (h : LList.eqE a b = true) :
    LList.eqE (a.map (LList.mapL f)) (b.map (LList.mapL f)) = true := by
  cases a with
  | error ea =>
    cases b with
    | error eb =>
      simp only [LList.eqE, decide_eq_true_eq] at h
      subst h
      simp [Except.map, LList.eqE]
    | ok lb => simp [LList.eqE] at h
  | ok la =>
    cases b with
    | error eb => simp [LList.eqE] at h
    | ok lb =>
      simp only [Except.map, LList.eqE, LList.eqL, Bool.and_eq_true,
        decide_eq_true_eq] at h ⊢
      obtain ⟨⟨⟨⟨hpeq, hlen⟩, hdep⟩, hpd⟩, hupd⟩ := h
      refine ⟨⟨⟨⟨?_, hlen⟩, hdep⟩, hpd⟩, ?_⟩
      · rw [MTree.peq_iff_strip] at hpeq ⊢
        have h1 : (la.mapL f).interface.backing.tree
            = la.interface.backing.tree.mapT f := rfl
        have h2 : (lb.mapL f).interface.backing.tree
            = lb.interface.backing.tree.mapT f := rfl
        rw [h1, h2, MTree.strip_mapT, MTree.strip_mapT, hpeq]
      · have h1 : (la.mapL f).interface.updates
            = la.interface.updates.mapU f := rfl
        have h2 : (lb.mapL f).interface.updates
            = lb.interface.updates.mapU f := rfl
        rw [h1, h2, hupd]

theorem map_range_getD {T : Type} (v : List T) (d : T) :
    (List.range v.length).map (fun i => v.getD i d) = v := by
  induction v with
  | nil => rfl
  | cons x rest ih =>
    simp only [List.length_cons, List.range_succ_eq_map, List.map_cons,
      List.map_map]
    refine congrArg (x :: ·) ?_
    have : ((fun i => (x :: rest).getD i d) ∘ Nat.succ)
        = fun i => rest.getD i d := rfl
    rw [this, ih]

theorem try_from_iter_range_fact (n : Nat) (hn : n ≤ 8) :
    LList.eqE (LList.try_from_iter (some 4) 8 (List.range n))
      (LList.try_from_iter_slow (some 4) 8 (List.range n)) = true
    ∧ LList.eqE (LList.try_from_iter none 8 (List.range n))
      (LList.try_from_iter_slow none 8 (List.range n)) = true := by
  have hcase : n = 0 ∨ n = 1 ∨ n = 2 ∨ n = 3 ∨ n = 4 ∨ n = 5 ∨ n = 6 ∨ n = 7
      ∨ n = 8 := by omega
  rcases hcase with h | h | h | h | h | h | h | h | h <;> subst h <;>
    exact ⟨by decide, by decide⟩

/-- C2: for every vector `v` of length at most the capacity, the merge-stack
builder construction `List::try_from_iter` returns the same result (under the
Rust `==`, which ignores hash caches) as `List::try_from_iter_slow`, which
pushes the elements one by one into an empty list and applies the buffered
updates.  Verified at capacity `N = 8` both for a packed list (packing factor
4, as for `u64` elements) and for an unpacked list, with arbitrary element
values. -/
theorem C2_try_from_iter_equivalence {T : Type} [DecidableEq T] (v : List T)
    (hv : v.length ≤ 8) :
    LList.eqE (LList.try_from_iter (some 4) 8 v)
      (LList.try_from_iter_slow (some 4) 8 v) = true
    ∧ LList.eqE (LList.try_from_iter none 8 v)
      (LList.try_from_iter_slow none 8 v) = true := by
  cases v with
  | nil => exact ⟨rfl, rfl⟩
  | cons x rest =>
    have hv1 : (x :: rest) = (List.range (x :: rest).length).map
        (fun i => (x :: rest).getD i x) := (map_range_getD (x :: rest) x).symm
    rw [hv1, LList.try_from_iter_map, LList.try_from_iter_slow_map,
      LList.try_from_iter_map, LList.try_from_iter_slow_map]
    have hfact := try_from_iter_range_fact (x :: rest).length hv
    exact ⟨LList.eqE_map _ _ _ hfact.1, LList.eqE_map _ _ _ hfact.2⟩

theorem C2_try_from_iter_equivalence_witness :
    ([5, 7, 7, 7, 9] : List Nat).length ≤ 8
    ∧ (LList.eqE (LList.try_from_iter (some 4) 8 [5, 7, 7, 7, 9])
        (LList.try_from_iter_slow (some 4) 8 [5, 7, 7, 7, 9]) = true
      ∧ LList.eqE (LList.try_from_iter none 8 [5, 7, 7, 7, 9])
        (LList.try_from_iter_slow none 8 [5, 7, 7, 7, 9]) = true) :=
  ⟨by decide, C2_try_from_iter_equivalence [5, 7, 7, 7, 9] (by decide)⟩

theorem MTree.mapT_nodeC {A B : Type} (f : A → B) (l r : MTree A) (h : Hash) :
    (MTree.nodeC l r h).mapT f = MTree.nodeC (l.mapT f) (r.mapT f) h := rfl

theorem MTree.mapT_zeroT {A B : Type} (f : A → B) (d : Nat) :
    (MTree.zeroT d : MTree A).mapT f = MTree.zeroT d := rfl

theorem repeat_layer_step_map {A B : Type} (f : A → B) (depth : Nat)
    (layer : List (MTree A × Nat)) :
    repeat_layer_step depth (layer.map (fun p => (p.1.mapT f, p.2)))
      = (repeat_layer_step depth layer).map
          (List.map (fun p => (p.1.mapT f, p.2))) := by
  match layer with
  | [] => rfl
  | [(t, 0)] => rfl
  | [(t, 1)] => rfl
  | [(t, c + 2)] =>
    show repeat_layer_step depth [(t.mapT f, c + 2)] = _
    rw [repeat_layer_step, repeat_layer_step] <;>
      first
      | omega
      | (by_cases hc : c % 2 = 0 <;>
          simp [hc, Except.map, MTree.mapT_nodeC, MTree.mapT_zeroT])
  | [(t, 0), (u, 1)] => rfl
  | [(t, 1), (u, 1)] => rfl
  | [(t, c + 2), (u, 1)] =>
    show repeat_layer_step depth [(t.mapT f, c + 2), (u.mapT f, 1)] = _
    rw [repeat_layer_step, repeat_layer_step] <;>
      first
      | omega
      | (by_cases hc : c % 2 = 0 <;>
          simp [hc, Except.map, MTree.mapT_nodeC, MTree.mapT_zeroT])
  | [(t, c), (u, 0)] =>
    match c with
    | 0 => rfl
    | 1 => rfl
    | k + 2 => rfl
  | [(t, c), (u, d + 2)] =>
    match c with
    | 0 => rfl
    | 1 => rfl
    | k + 2 => rfl
  | ((t1, c1) :: (t2, c2) :: (t3, c3) :: rest) =>
    match c1, c2 with
    | 0, 0 => rfl
    | 0, 1 => rfl
    | 0, m + 2 => rfl
    | 1, 0 => rfl
    | 1, 1 => rfl
    | 1, m + 2 => rfl
    | k + 2, 0 => rfl
    | k + 2, 1 => rfl
    | k + 2, m + 2 => rfl

theorem repeat_loop_map {A B : Type} (f : A → B) :
    ∀ (remaining depth : Nat) (layer : List (MTree A × Nat)),
    repeat_loop depth remaining (layer.map (fun p => (p.1.mapT f, p.2)))
      = (repeat_loop depth remaining layer).map
          (List.map (fun p => (p.1.mapT f, p.2))) := by
  intro remaining
  induction remaining with
  | zero => intro depth layer; rfl
  | succ remaining ih =>
    intro depth layer
    rw [repeat_loop, repeat_loop]
    simp only [bind, Except.bind]
    rw [repeat_layer_step_map]
    cases repeat_layer_step depth layer with
    | error e => rfl
    | ok layer1 =>
      simp only [Except.map]
      exact ih (depth + 1) layer1

theorem List.getLast?_map_fun {A B : Type} (f : A → B) (l : List A) :
    (l.map f).getLast? = l.getLast?.map f := by
  induction l with
  | nil => rfl
  | cons x rest ih =>
    cases rest with
    | nil => rfl
    | cons y t =>
      simp only [List.map_cons, List.getLast?_cons_cons] at ih ⊢
      exact ih

theorem List.dropLast_map_fun {A B : Type} (f : A → B) (l : List A) :
    (l.map f).dropLast = l.dropLast.map f := by
  induction l with
  | nil => rfl
  | cons x rest ih =>
    cases rest with
    | nil => rfl
    | cons y t =>
      simp only [List.map_cons, List.dropLast_cons₂] at ih ⊢
      rw [ih]

theorem PLeaf.repeatP_map {A B : Type} (f : A → B) (elem : A) (k : Nat) :
    PLeaf.repeatP (f elem) k = (PLeaf.repeatP elem k).mapP f := by
  simp [PLeaf.repeatP, PLeaf.mapP, List.map_replicate]

theorem repeat_list_map {A B : Type} (pk : Option Nat) (N : Nat) (f : A → B)
    (elem : A) (n : Nat) :
    repeat_list pk N (f elem) n = (repeat_list pk N elem n).map (LList.mapL f) := by
  unfold repeat_list
  by_cases hn : n = 0
  · simp only [hn, if_pos]
    rfl
  · simp only [hn, if_neg, if_false, bind, Except.bind, pure, Except.pure]
    cases pk with
    | none =>
      dsimp only
      have hlay : ([(MTree.leafC (f elem), n)] : List (MTree B × Nat))
          = ([(MTree.leafC elem, n)] : List (MTree A × Nat)).map
              (fun p => (p.1.mapT f, p.2)) := rfl
      rw [hlay]
      rw [repeat_loop_map]
      cases repeat_loop 0 (LList.depthN none N) ([(MTree.leafC elem, n)]) with
      | error e => rfl
      | ok layer =>
        simp only [Except.map]
        rw [List.getLast?_map_fun]
        cases hlast : layer.getLast? with
        | none => rfl
        | some p =>
          rcases p with ⟨root, count⟩
          simp only [Option.map]
          rw [List.dropLast_map_fun, List.isEmpty_map_fun]
          split
          · rfl
          · rfl
    | some k =>
      dsimp only
      cases hrc : n / k with
      | zero =>
        cases hlc : n % k with
        | zero => rfl
        | succ lc =>
          have hlay : ([(MTree.packedLeaf (PLeaf.repeatP (f elem) (lc + 1)), 1)] :
                List (MTree B × Nat))
              = ([(MTree.packedLeaf (PLeaf.repeatP elem (lc + 1)), 1)] :
                  List (MTree A × Nat)).map (fun p => (p.1.mapT f, p.2)) := by
            simp [PLeaf.repeatP_map, MTree.mapT]
          rw [hlay]
          rw [repeat_loop_map]
          cases repeat_loop 0 (LList.depthN (some k) N) ([(MTree.packedLeaf (PLeaf.repeatP elem (lc + 1)), 1)]) with
          | error e => rfl
          | ok layer =>
            simp only [Except.map]
            rw [List.getLast?_map_fun]
            cases hlast : layer.getLast? with
            | none => rfl
            | some p =>
              rcases p with ⟨root, count⟩
              simp only [Option.map]
              rw [List.dropLast_map_fun, List.isEmpty_map_fun]
              split
              · rfl
              · rfl
      | succ rc =>
        cases hlc : n % k with
        | zero =>
          have hlay : ([(MTree.packedLeaf (PLeaf.repeatP (f elem) k), rc + 1)] :
                List (MTree B × Nat))
              = ([(MTree.packedLeaf (PLeaf.repeatP elem k), rc + 1)] :
                  List (MTree A × Nat)).map (fun p => (p.1.mapT f, p.2)) := by
            simp [PLeaf.repeatP_map, MTree.mapT]
          rw [hlay]
          rw [repeat_loop_map]
          cases repeat_loop 0 (LList.depthN (some k) N) ([(MTree.packedLeaf (PLeaf.repeatP elem k), rc + 1)]) with
          | error e => rfl
          | ok layer =>
            simp only [Except.map]
            rw [List.getLast?_map_fun]
            cases hlast : layer.getLast? with
            | none => rfl
            | some p =>
              rcases p with ⟨root, count⟩
              simp only [Option.map]
              rw [List.dropLast_map_fun, List.isEmpty_map_fun]
              split
              · rfl
              · rfl
        | succ lc =>
          have hlay : ([(MTree.packedLeaf (PLeaf.repeatP (f elem) k), rc + 1),
                (MTree.packedLeaf (PLeaf.repeatP (f elem) (lc + 1)), 1)] :
                List (MTree B × Nat))
              = ([(MTree.packedLeaf (PLeaf.repeatP elem k), rc + 1),
                  (MTree.packedLeaf (PLeaf.repeatP elem (lc + 1)), 1)] :
                  List (MTree A × Nat)).map (fun p => (p.1.mapT f, p.2)) := by
            simp [PLeaf.repeatP_map, MTree.mapT]
          rw [hlay]
          rw [repeat_loop_map]
          cases repeat_loop 0 (LList.depthN (some k) N) ([(MTree.packedLeaf (PLeaf.repeatP elem k), rc + 1),
                  (MTree.packedLeaf (PLeaf.repeatP elem (lc + 1)), 1)]) with
          | error e => rfl
          | ok layer =>
            simp only [Except.map]
            rw [List.getLast?_map_fun]
            cases hlast : layer.getLast? with
            | none => rfl
            | some p =>
              rcases p with ⟨root, count⟩
              simp only [Option.map]
              rw [List.dropLast_map_fun, List.isEmpty_map_fun]
              split
              · rfl
              · rfl

theorem repeat_range_fact :
    ∀ n, n ≤ 8 →
      LList.eqE (repeat_list (some 4) 8 () n)
        (LList.try_from_iter (some 4) 8 (List.replicate n ())) = true
      ∧ LList.eqE (repeat_list none 8 () n)
        (LList.try_from_iter none 8 (List.replicate n ())) = true := by decide

/-- C8: for every value `v` and every `n` at most the capacity, the optimized
`List::repeat(v, n)` (per-level doubling of a repeated subtree plus an
optional lonely subtree) returns the same result (under the Rust `==`, which
ignores hash caches) as `List::repeat_slow(v, n)`, which builds the list from
`n` copies of `v`.  Verified at capacity `N = 8` both for a packed list
(packing factor 4) and for an unpacked list, with an arbitrary value. -/
theorem C8_repeat_equivalence {T : Type} [DecidableEq T] (v : T) (n : Nat)
    (hn : n ≤ 8) :
    LList.eqE (LList.repeatL (some 4) 8 v n)
      (LList.repeat_slow (some 4) 8 v n) = true
    ∧ LList.eqE (LList.repeatL none 8 v n)
      (LList.repeat_slow none 8 v n) = true := by
  have hfact := repeat_range_fact n hn
  have hv : v = (fun _ : Unit => v) () := rfl
  have key : ∀ pk : Option Nat,
      LList.eqE (repeat_list pk 8 () n)
        (LList.try_from_iter pk 8 (List.replicate n ())) = true →
      LList.eqE (LList.repeatL pk 8 v n) (LList.repeat_slow pk 8 v n) = true := by
    intro pk h
    unfold LList.repeatL LList.repeat_slow
    have hrep : List.replicate n ((fun _ : Unit => v) ())
        = (List.replicate n ()).map (fun _ : Unit => v) := by
      rw [List.map_replicate]
    rw [hv, repeat_list_map pk 8 (fun _ : Unit => v) () n, hrep,
      LList.try_from_iter_map pk 8 (fun _ : Unit => v) (List.replicate n ())]
    exact LList.eqE_map _ _ _ h
  exact ⟨key (some 4) hfact.1, key none hfact.2⟩

theorem C8_repeat_equivalence_witness :
    (6 : Nat) ≤ 8
    ∧ (LList.eqE (LList.repeatL (some 4) 8 (42 : Nat) 6)
        (LList.repeat_slow (some 4) 8 42 6) = true
      ∧ LList.eqE (LList.repeatL none 8 (42 : Nat) 6)
        (LList.repeat_slow none 8 42 6) = true) :=
  ⟨by decide, C8_repeat_equivalence 42 6 (by decide)⟩

theorem IterS.next_go_mapIt {A B : Type} (f : A → B) :
    ∀ (fuel : Nat) (it : IterS A),
    IterS.next_go fuel (it.mapIt f)
      = (IterS.next_go fuel it).map (fun p => (f p.1, p.2.mapIt f)) := by
  intro fuel
  induction fuel with
  | zero => intro it; rfl
  | succ fuel ih =>
    intro it
    rw [IterS.next_go, IterS.next_go]
    have hidx : (it.mapIt f).index = it.index := rfl
    have hlen : (it.mapIt f).length = it.length := rfl
    have hst : (it.mapIt f).stack = it.stack.map (MTree.mapT f) := rfl
    have hpf : (it.mapIt f).packing_factor = it.packing_factor := rfl
    have hpd : (it.mapIt f).packing_depth = it.packing_depth := rfl
    have hfd : (it.mapIt f).full_depth = it.full_depth := rfl
    rw [hidx, hlen, hst, hpf, hpd, hfd]
    by_cases hend : it.index ≥ it.length
    · simp [hend]
    · simp only [hend, if_neg, if_false]
      cases hstk : it.stack with
      | nil => rfl
      | cons hd rest =>
        cases hd with
        | zero d => rfl
        | leaf l =>
          simp [MTree.mapT, IterS.mapIt, List.map_drop, hstk, LeafS.mapLf]
        | packedLeaf pl =>
          simp only [List.map, MTree.mapT]
          have hget : (pl.mapP f).values.get? (it.index % it.packing_factor)
              = (pl.values.get? (it.index % it.packing_factor)).map f :=
            List.get?_map f pl.values _
          rw [hget]
          cases pl.values.get? (it.index % it.packing_factor) with
          | none => rfl
          | some value =>
            by_cases hsub : it.index % it.packing_factor + 1 = it.packing_factor
            · simp [hsub, IterS.mapIt, List.map_drop, hstk, MTree.mapT]
            · simp [hsub, IterS.mapIt, hstk, MTree.mapT]
        | node h left right =>
          simp only [List.map, MTree.mapT, List.length_map, List.length_cons]
          by_cases hbit : (it.index >>> (it.full_depth - (rest.length + 1)
              + it.packing_depth)) % 2 = 0
          · simp only [hbit, if_pos]
            exact ih { it with stack := left :: MTree.node h left right :: rest }
          · simp only [hbit, if_neg, if_false]
            exact ih { it with stack := right :: MTree.node h left right :: rest }

theorem IterS.next_mapIt {A B : Type} (f : A → B) (it : IterS A) :
    (it.mapIt f).next = it.next.map (fun p => (f p.1, p.2.mapIt f)) :=
  IterS.next_go_mapIt f _ it

theorem InterfaceIter.next_mapII {A B : Type} (f : A → B) (it : InterfaceIter A) :
    (it.mapII f).next
      = match it.next with
        | Panicky.panicked => Panicky.panicked
        | Panicky.ok (v, it1) => Panicky.ok (v.map f, it1.mapII f) := by
  unfold InterfaceIter.next
  have h1 : (it.mapII f).tree_iter = it.tree_iter.mapIt f := rfl
  have h2 : (it.mapII f).index = it.index := rfl
  have h3 : (it.mapII f).updates = it.updates.mapU f := rfl
  rw [h1, h2, h3]
  have h4 : (it.tree_iter.mapIt f).index = it.tree_iter.index := rfl
  have h5 : (it.tree_iter.mapIt f).length = it.tree_iter.length := rfl
  rw [h4, h5]
  by_cases hc : it.tree_iter.index < it.tree_iter.length
      ∧ it.tree_iter.index ≠ it.index
  · simp [hc]
  · simp only [hc, if_neg, if_false]
    rw [IterS.next_mapIt]
    cases it.tree_iter.next with
    | none =>
      simp only [Option.map]
      rw [UMap.get_map]
      cases it.updates.get it.index with
      | none => rfl
      | some u => rfl
    | some p =>
      rcases p with ⟨v, ti⟩
      simp only [Option.map]
      rw [UMap.get_map]
      cases it.updates.get it.index with
      | none => rfl
      | some u => rfl

theorem InterfaceIter.to_list_mapII {A B : Type} (f : A → B) :
    ∀ (fuel : Nat) (it : InterfaceIter A),
    InterfaceIter.to_list fuel (it.mapII f)
      = match InterfaceIter.to_list fuel it with
        | Panicky.panicked => Panicky.panicked
        | Panicky.ok items => Panicky.ok (items.map f) := by
  intro fuel
  induction fuel with
  | zero => intro it; rfl
  | succ fuel ih =>
    intro it
    rw [InterfaceIter.to_list, InterfaceIter.to_list]
    rw [InterfaceIter.next_mapII]
    cases it.next with
    | panicked => rfl
    | ok p =>
      rcases p with ⟨v, it1⟩
      cases v with
      | none => rfl
      | some v0 =>
        simp only [Option.map]
        rw [ih]
        cases InterfaceIter.to_list fuel it1 with
        | panicked => rfl
        | ok items => rfl

theorem Interface.iter_from_mapIf {A B : Type} (pk : Option Nat) (f : A → B)
    (i : Interface A) (index : Nat) :
    (i.mapIf f).iter_from pk index = (i.iter_from pk index).mapII f := by
  unfold Interface.iter_from
  simp only [InterfaceIter.mapII, InterfaceIter.mk.injEq]
  exact ⟨rfl, rfl, trivial, Interface.len_map f i⟩

theorem LList.iter_from_mapL {A B : Type} (pk : Option Nat) (f : A → B)
    (l : LList A) (index : Nat) :
    (l.mapL f).iter_from pk index
      = (l.iter_from pk index).map (InterfaceIter.mapII f) := by
  unfold LList.iter_from
  have hlen : (l.mapL f).len = l.len := by
    show (l.interface.mapIf f).len = l.interface.len
    exact Interface.len_map f l.interface
  rw [hlen]
  by_cases hgt : index > l.len
  · simp [hgt, Except.map]
  · simp only [hgt, if_neg, if_false, Except.map]
    refine congrArg Except.ok ?_
    exact Interface.iter_from_mapIf pk f l.interface index

theorem LList.pop_front_slow_map {A B : Type} (pk : Option Nat) (N : Nat)
    (f : A → B) (l : LList A) (n : Nat) :
    LList.pop_front_slow pk N (l.mapL f) n
      = (LList.pop_front_slow pk N l n).map (LList.mapL f) := by
  unfold LList.pop_front_slow
  simp only [bind, Except.bind]
  rw [LList.iter_from_mapL]
  cases l.iter_from pk n with
  | error e => rfl
  | ok it =>
    simp only [Except.map]
    have hlen : (l.mapL f).len = l.len := Interface.len_map f l.interface
    rw [hlen, InterfaceIter.to_list_mapII]
    cases InterfaceIter.to_list (l.len + 2) it with
    | panicked => rfl
    | ok items =>
      exact LList.try_from_iter_map pk N f items

theorem LevelIter.next_go_mapLI {A B : Type} (f : A → B) :
    ∀ (fuel : Nat) (it : LevelIter A),
    LevelIter.next_go fuel (it.mapLI f)
      = (LevelIter.next_go fuel it).map
          (fun p => (p.1.mapLN f, p.2.mapLI f)) := by
  intro fuel
  induction fuel with
  | zero => intro it; rfl
  | succ fuel ih =>
    intro it
    rw [LevelIter.next_go, LevelIter.next_go]
    have hidx : (it.mapLI f).index = it.index := rfl
    have hlen : (it.mapLI f).length = it.length := rfl
    have hst : (it.mapLI f).stack = it.stack.map (MTree.mapT f) := rfl
    have hpf : (it.mapLI f).packing_factor = it.packing_factor := rfl
    have hpd : (it.mapLI f).packing_depth = it.packing_depth := rfl
    have hfd : (it.mapLI f).full_depth = it.full_depth := rfl
    have hlev : (it.mapLI f).level = it.level := rfl
    rw [hidx, hlen, hst, hpf, hpd, hfd, hlev]
    by_cases hend : it.index ≥ it.length
    · simp [hend]
    · simp only [hend, if_neg, if_false]
      cases hstk : it.stack with
      | nil => rfl
      | cons hd rest =>
        cases hd with
        | zero d => rfl
        | leaf l =>
          simp [MTree.mapT, LevelIter.mapLI, LevelNode.mapLN, List.map_drop,
            hstk, LeafS.mapLf]
        | packedLeaf pl =>
          simp only [List.map, MTree.mapT, List.length_map, List.length_cons]
          by_cases hdep : it.full_depth + it.packing_depth - (rest.length + 1) + 1
              = it.level
          · simp [hdep, MTree.mapT, LevelIter.mapLI, LevelNode.mapLN,
              List.map_drop, hstk, PLeaf.mapP]
          · simp only [hdep, if_neg, if_false]
            have hget : (pl.mapP f).values.get? (it.index % it.packing_factor)
                = (pl.values.get? (it.index % it.packing_factor)).map f :=
              List.get?_map f pl.values _
            rw [hget]
            cases pl.values.get? (it.index % it.packing_factor) with
            | none => rfl
            | some value =>
              by_cases hsub : it.index % it.packing_factor + 1 = it.packing_factor
              · simp [hsub, LevelIter.mapLI, LevelNode.mapLN, List.map_drop,
                  hstk, MTree.mapT]
              · simp [hsub, LevelIter.mapLI, LevelNode.mapLN, hstk, MTree.mapT]
        | node h left right =>
          simp only [List.map, MTree.mapT, List.length_map, List.length_cons]
          by_cases hdep : it.full_depth + it.packing_depth - (rest.length + 1) + 1
              = it.level
          · simp [hdep, MTree.mapT, LevelIter.mapLI, LevelNode.mapLN,
              List.map_drop, hstk]
          · simp only [hdep, if_neg, if_false]
            by_cases hbit : (it.index >>> (it.full_depth + it.packing_depth
                - (rest.length + 1))) % 2 = 0
            · simp only [hbit, if_pos]
              exact ih { it with stack := left :: MTree.node h left right :: rest }
            · simp only [hbit, if_neg, if_false]
              exact ih { it with stack := right :: MTree.node h left right :: rest }

theorem LevelIter.next_mapLI {A B : Type} (f : A → B) (it : LevelIter A) :
    (it.mapLI f).next = it.next.map (fun p => (p.1.mapLN f, p.2.mapLI f)) :=
  LevelIter.next_go_mapLI f _ it

theorem LevelIter.to_list_mapLI {A B : Type} (f : A → B) :
    ∀ (fuel : Nat) (it : LevelIter A),
    LevelIter.to_list fuel (it.mapLI f)
      = (LevelIter.to_list fuel it).map (LevelNode.mapLN f) := by
  intro fuel
  induction fuel with
  | zero => intro it; rfl
  | succ fuel ih =>
    intro it
    rw [LevelIter.to_list, LevelIter.to_list]
    rw [LevelIter.next_mapLI]
    cases it.next with
    | none => rfl
    | some p =>
      rcases p with ⟨item, it1⟩
      simp only [Option.map, List.map]
      rw [ih]

theorem LList.level_iter_from_map {A B : Type} (pk : Option Nat) (f : A → B)
    (l : LList A) (index : Nat) :
    (l.mapL f).level_iter_from pk index
      = (l.level_iter_from pk index).map (LevelIter.mapLI f) := by
  unfold LList.level_iter_from
  have hlen : (l.mapL f).len = l.len := Interface.len_map f l.interface
  rw [hlen]
  by_cases hgt : index > l.len
  · simp [hgt, Except.map]
  · simp only [hgt, if_neg, if_false]
    unfold Interface.level_iter_from
    have hpend : (l.mapL f).interface.has_pending_updates
        = l.interface.has_pending_updates := by
      have hie : (l.interface.updates.mapU f).is_empty
          = l.interface.updates.is_empty := by
        unfold UMap.is_empty
        rw [UMap.isEmpty_map]
      show (!(l.interface.updates.mapU f).is_empty)
          = (!l.interface.updates.is_empty)
      rw [hie]
    rw [hpend]
    by_cases hp : l.interface.has_pending_updates
    · simp [hp, Except.map]
    · simp only [hp, Bool.false_eq_true, if_false, if_neg, Except.map]
      rfl

theorem Builder.merge_loop_node_map {A B : Type} (f : A → B) :
    ∀ (m : Nat) (stack : List (MTree A)) (top : MTree A),
    Builder.merge_loop_node m (stack.map (MTree.mapT f)) (top.mapT f)
      = ((Builder.merge_loop_node m stack top).1.mapT f,
          (Builder.merge_loop_node m stack top).2.map (MTree.mapT f)) := by
  intro m
  induction m with
  | zero => intro stack top; rfl
  | succ m ih =>
    intro stack top
    cases stack with
    | nil =>
      simp only [List.map, Builder.merge_loop_node]
      exact ih [] top
    | cons left rest =>
      simp only [List.map, Builder.merge_loop_node]
      exact ih rest (MTree.nodeC left top 0)

theorem Builder.push_node_map {A B : Type} (f : A → B) (b : Builder A)
    (node : MTree A) (len : Nat) :
    (b.mapB f).push_node (node.mapT f) len
      = (b.push_node node len).map (Builder.mapB f) := by
  unfold Builder.push_node
  have hlen : (b.mapB f).length = b.length := rfl
  have hcap : (b.mapB f).capacity = b.capacity := rfl
  have hlev : (b.mapB f).level = b.level := rfl
  have hpd : (b.mapB f).packing_depth = b.packing_depth := rfl
  have hst : (b.mapB f).stack = b.stack.map (MTree.mapT f) := rfl
  rw [hlen, hcap, hlev, hpd, hst]
  by_cases hfull : b.length = b.capacity
  · simp [hfull, Except.map, throw, throwThe, MonadExceptOf.throw, bind,
      Except.bind]
  · simp only [hfull, if_neg, if_false, bind, Except.bind, pure, Except.pure]
    rw [Builder.merge_loop_node_map]
    rfl

theorem LList.pop_front_push_loop_map {A B : Type} (f : A → B) (level : Nat) :
    ∀ (items : List (LevelNode A)) (b : Builder A),
    LList.pop_front_push_loop level (items.map (LevelNode.mapLN f)) (b.mapB f)
      = (LList.pop_front_push_loop level items b).map (Builder.mapB f) := by
  intro items
  induction items with
  | nil => intro b; rfl
  | cons item rest ih =>
    intro b
    cases item with
    | internal node =>
      simp only [List.map, LevelNode.mapLN, LList.pop_front_push_loop, bind,
        Except.bind]
      rw [List.isEmpty_map_fun, MTree.compute_len_map, Builder.push_node_map]
      cases b.push_node node
          (if !rest.isEmpty then 1 <<< level else node.compute_len) with
      | error e => rfl
      | ok b1 =>
        simp only [Except.map]
        exact ih b1
    | packedLeafValue v =>
      simp only [List.map, LevelNode.mapLN, LList.pop_front_push_loop, bind,
        Except.bind]
      rw [Builder.push_mapB]
      cases b.push v with
      | error e => rfl
      | ok b1 =>
        simp only [Except.map]
        exact ih b1

theorem LList.pop_front_map {A B : Type} (pk : Option Nat) (N : Nat)
    (f : A → B) (l : LList A) (n : Nat) :
    LList.pop_front pk N (l.mapL f) n
      = (LList.pop_front pk N l n).map (LList.mapL f) := by
  unfold LList.pop_front
  simp only [bind, Except.bind]
  rw [LList.apply_updates_mapL]
  rcases hp : l.apply_updates pk N with ⟨l1, res⟩
  cases res with
  | some e => rfl
  | none =>
    by_cases hn : n = 0
    · simp [hn, Except.map, pure, Except.pure]
    · simp only [hn, if_neg, if_false]
      rw [← Builder.new_map pk (LList.depthN pk N)
        (compute_level n (LList.depthN pk N) (packing_depth_of pk)) f]
      cases hb0 : (Builder.new pk (LList.depthN pk N)
          (compute_level n (LList.depthN pk N) (packing_depth_of pk)) :
            Except Err (Builder A)) with
      | error e => rfl
      | ok b0 =>
        simp only [Except.map]
        rw [LList.level_iter_from_map]
        cases l1.level_iter_from pk n with
        | error e => rfl
        | ok level_iter =>
          simp only [Except.map]
          have hlen : (l1.mapL f).len = l1.len := Interface.len_map f l1.interface
          rw [hlen, LevelIter.to_list_mapLI, LList.pop_front_push_loop_map]
          cases LList.pop_front_push_loop
              (compute_level n (LList.depthN pk N) (packing_depth_of pk))
              (LevelIter.to_list (l1.len + 2) level_iter) b0 with
          | error e => rfl
          | ok b =>
            simp only [Except.map]
            rw [Builder.finish_map]
            cases b.finish with
            | error e => rfl
            | ok p =>
              rcases p with ⟨tree, depth1, length⟩
              rfl

theorem pop_front_range_fact :
    ∀ m, m ≤ 8 → ∀ n, n ≤ m →
      LList.eqE ((LList.try_from_iter (some 4) 8 (List.range m)).bind
          (fun l => LList.pop_front (some 4) 8 l n))
        ((LList.try_from_iter (some 4) 8 (List.range m)).bind
          (fun l => LList.pop_front_slow (some 4) 8 l n)) = true
      ∧ LList.eqE ((LList.try_from_iter none 8 (List.range m)).bind
          (fun l => LList.pop_front none 8 l n))
        ((LList.try_from_iter none 8 (List.range m)).bind
          (fun l => LList.pop_front_slow none 8 l n)) = true := by decide

/-- C7: for every list built from a vector of length at most the capacity and
every `n ≤ len`, the builder-based `List::pop_front(n)` (drain the level
iterator from `n` into a fresh builder) returns the same result (under the
Rust `==`, which ignores hash caches) as `List::pop_front_slow(n)`, which
rebuilds the list from the element iterator starting at `n`.  Verified at
capacity `N = 8` both for a packed list (packing factor 4) and for an
unpacked list, with arbitrary element values. -/
theorem C7_pop_front_equivalence {T : Type} [DecidableEq T] (v : List T)
    (hv : v.length ≤ 8) (n : Nat) (hn : n ≤ v.length) :
    LList.eqE ((LList.try_from_iter (some 4) 8 v).bind
        (fun l => LList.pop_front (some 4) 8 l n))
      ((LList.try_from_iter (some 4) 8 v).bind
        (fun l => LList.pop_front_slow (some 4) 8 l n)) = true
    ∧ LList.eqE ((LList.try_from_iter none 8 v).bind
        (fun l => LList.pop_front none 8 l n))
      ((LList.try_from_iter none 8 v).bind
        (fun l => LList.pop_front_slow none 8 l n)) = true := by
  cases v with
  | nil =>
    have hn0 : n = 0 := Nat.le_zero.mp hn
    subst hn0
    exact ⟨rfl, rfl⟩
  | cons x rest =>
    have hfact := pop_front_range_fact (x :: rest).length hv n hn
    have hv1 : (x :: rest) = (List.range (x :: rest).length).map
        (fun i => (x :: rest).getD i x) := (map_range_getD (x :: rest) x).symm
    have hbind : ∀ (pk : Option Nat)
        (g : (LList T → Except Err (LList T)))
        (gN : (LList Nat → Except Err (LList Nat)))
        (a : Except Err (LList Nat)),
        (∀ l : LList Nat, g (l.mapL (fun i => (x :: rest).getD i x))
          = (gN l).map (LList.mapL (fun i => (x :: rest).getD i x))) →
        (a.map (LList.mapL (fun i => (x :: rest).getD i x))).bind g
          = (a.bind gN).map (LList.mapL (fun i => (x :: rest).getD i x)) := by
      intro pk g gN a hg
      cases a with
      | error e => rfl
      | ok l =>
        simp only [Except.map, Except.bind, bind]
        exact hg l
    constructor
    · rw [hv1, LList.try_from_iter_map,
        hbind (some 4) _ (fun l => LList.pop_front (some 4) 8 l n)
          _ (fun l => LList.pop_front_map (some 4) 8 _ l n),
        hbind (some 4) _ (fun l => LList.pop_front_slow (some 4) 8 l n)
          _ (fun l => LList.pop_front_slow_map (some 4) 8 _ l n)]
      exact LList.eqE_map _ _ _ hfact.1
    · rw [hv1, LList.try_from_iter_map,
        hbind none _ (fun l => LList.pop_front none 8 l n)
          _ (fun l => LList.pop_front_map none 8 _ l n),
        hbind none _ (fun l => LList.pop_front_slow none 8 l n)
          _ (fun l => LList.pop_front_slow_map none 8 _ l n)]
      exact LList.eqE_map _ _ _ hfact.2

theorem C7_pop_front_equivalence_witness :
    ([3, 1, 4, 1, 5] : List Nat).length ≤ 8
    ∧ (2 : Nat) ≤ ([3, 1, 4, 1, 5] : List Nat).length
    ∧ (LList.eqE ((LList.try_from_iter (some 4) 8 [3, 1, 4, 1, 5]).bind
          (fun l => LList.pop_front (some 4) 8 l 2))
        ((LList.try_from_iter (some 4) 8 [3, 1, 4, 1, 5]).bind
          (fun l => LList.pop_front_slow (some 4) 8 l 2)) = true
      ∧ LList.eqE ((LList.try_from_iter none 8 [3, 1, 4, 1, 5]).bind
          (fun l => LList.pop_front none 8 l 2))
        ((LList.try_from_iter none 8 [3, 1, 4, 1, 5]).bind
          (fun l => LList.pop_front_slow none 8 l 2)) = true) :=
  ⟨by decide, by decide,
    C7_pop_front_equivalence [3, 1, 4, 1, 5] (by decide) 2 (by decide)⟩
